import Mathlib

/-!
Verification of the Booking Bot webhook client (`src/app/page.tsx`).

The development shallowly embeds the client's core logic:

* `parseWebhookText` — the response decoder (JSON priority ladder, iframe
  `srcdoc` extraction, HTML tag stripping, plain-text fallback);
* `handleSend` — the optimistic conversation log (user entry, pending
  placeholder, id-targeted resolution, demo fallback on failure);
* `composeFormData` — the multipart payload composition;
* `toggleRecording` — the audio-capture lifecycle.

JavaScript built-ins used by the code are modelled executably:
`JSON.parse` / `JSON.stringify` as a verified JSON codec over an inductive
`Json` value type (numbers are modelled as exact integers: fractional or
exponent literals fall outside the model, standing in for the engine's
IEEE doubles), `String.prototype.trim` as `jsTrimL`, and `DOMParser` as a
small HTML tokenizer sufficient for text content and attribute extraction.
All functions are structurally recursive (fuel-based where needed), so every
concrete run reduces by `rfl`/`decide`.
-/

/-! ### Character-level helpers -/

/-- Whitespace accepted by the JSON grammar (what `JSON.parse` skips). -/
def isJsonWs (c : Char) : Bool :=
  c == ' ' || c == '\t' || c == '\n' || c == '\r'

/-- Whitespace removed by JavaScript `String.prototype.trim` (the WhiteSpace
and LineTerminator productions; the common code points are modelled). -/
def isTrimWs (c : Char) : Bool :=
  c == ' ' || c == '\t' || c == '\n' || c == '\r' || c == '\x0b' ||
    c == '\x0c' || c == '\xa0' || c.toNat == 0xfeff

/-- Model of JavaScript `trim()` on a character list: strip leading and
trailing whitespace. -/
def jsTrimL (l : List Char) : List Char :=
  ((l.dropWhile isTrimWs).reverse.dropWhile isTrimWs).reverse

/-- Drop JSON whitespace from the front of the input. -/
def skipWsL : List Char → List Char
  | c :: cs => if isJsonWs c then skipWsL cs else c :: cs
  | [] => []

/-- Decimal digit character for a value below ten. -/
def digitChar (n : Nat) : Char := Char.ofNat (48 + n)

/-- Decimal digits of `n`, most significant first; structural on fuel so that
concrete runs reduce in the kernel (`natDigs` supplies adequate fuel). -/
def natDigsAux : Nat → Nat → List Char
  | 0, _ => []
  | fuel + 1, n =>
    if n < 10 then [digitChar n]
    else natDigsAux fuel (n / 10) ++ [digitChar (n % 10)]

/-- Decimal digits of a natural number, most significant first. -/
def natDigs (n : Nat) : List Char := natDigsAux (n + 1) n

/-- Characters of an integer in decimal, as JavaScript `String(n)` prints an
integral number: optional minus sign, then digits. -/
def intChars (i : Int) : List Char :=
  (if i < 0 then ['-'] else []) ++ natDigs i.natAbs

/-- Decide whether `pat` occurs as a contiguous run inside `l` (the model of
JavaScript `String.prototype.includes`). -/
def containsSub (l pat : List Char) : Bool :=
  match l with
  | [] => pat.isEmpty
  | _ :: tl => pat.isPrefixOf l || containsSub tl pat

/-- Lower-case a character list (model of `toLowerCase` on the ASCII range the
decoder's heuristics compare against). -/
def toLowerL (l : List Char) : List Char := l.map Char.toLower

/-- ASCII decimal digit test. -/
def isDigitC (c : Char) : Bool := '0' ≤ c && c ≤ '9'

/-! ### The JSON value model

`Json` stands for the values `JSON.parse` can produce. Object members are
kept in insertion order, as JavaScript objects enumerate them. Numbers are
exact integers (see the header comment). -/

inductive Json where
  | null
  | bool (b : Bool)
  | num (n : Int)
  | str (s : String)
  | arr (items : List Json)
  | obj (members : List (String × Json))

/-- Property lookup on an object's member list: first match (member lists
built by the parser carry distinct keys). -/
def getEntry : List (String × Json) → String → Option Json
  | [], _ => none
  | (k, v) :: rest, key => if k = key then some v else getEntry rest key

/-- JavaScript property access `j[key]`: a value on objects, `undefined`
(here `none`) on everything else, arrays included. -/
def Json.prop (j : Json) (key : String) : Option Json :=
  match j with
  | .obj members => getEntry members key
  | _ => none

/-- Model of the source's `isRecord`: `typeof v === "object" && v !== null`,
which is true for both objects and arrays. -/
def Json.isRec : Json → Bool
  | .obj _ => true
  | .arr _ => true
  | _ => false

/-! ### JSON string escaping (`JSON.stringify` quoting) -/

/-- Hex digit character (lowercase), as `QuoteJSONString` emits. -/
def hexDigit (n : Nat) : Char :=
  if n < 10 then digitChar n else Char.ofNat (87 + n)

/-- Escape one character the way `JSON.stringify` does: the two-character
escapes for quote, backslash, backspace, form feed, newline, carriage return
and tab; `\u00xx` for the remaining control characters; everything else
verbatim. -/
def escChar (c : Char) : List Char :=
  match c with
  | '"' => '\\' :: ['"']
  | '\\' => ['\\', '\\']
  | '\x08' => '\\' :: ['b']
  | '\x0c' => ['\\', 'f']
  | '\n' => '\\' :: ['n']
  | '\r' => ['\\', 'r']
  | '\t' => '\\' :: ['t']
  | c =>
    if c.toNat < 32 then
      ['\\', 'u', '0', '0', hexDigit (c.toNat / 16), hexDigit (c.toNat % 16)]
    else [c]

/-- A string rendered as a JSON string literal. -/
def quoteL (s : String) : List Char :=
  '"' :: (s.data.flatMap escChar ++ ['"'])

/-! ### `JSON.stringify` with `null, 2` (the pretty dump) and compact form -/

/-- Two-space-per-level indentation, as spaces. -/
def indentL (n : Nat) : List Char := List.replicate n ' '

mutual

/-- Model of `JSON.stringify(v, null, 2)`: `ind` is the indentation (in
spaces) of the line the value starts on; children indent two more. -/
def prettyL : Json → Nat → List Char
  | .null, _ => "null".data
  | .bool true, _ => "true".data
  | .bool false, _ => "false".data
  | .num n, _ => intChars n
  | .str s, _ => quoteL s
  | .arr [], _ => "[]".data
  | .arr (x :: xs), ind =>
    '[' :: '\n' :: (prettyItems (x :: xs) (ind + 2) ++ '\n' :: (indentL ind ++ [']']))
  | .obj [], _ => "\x7b\x7d".data
  | .obj (m :: ms), ind =>
    '\x7b' :: '\n' :: (prettyMembers (m :: ms) (ind + 2) ++ '\n' :: (indentL ind ++ ['\x7d']))

/-- Array items, one per line at indentation `ind`, comma-separated. -/
def prettyItems : List Json → Nat → List Char
  | [], _ => []
  | [x], ind => indentL ind ++ prettyL x ind
  | x :: y :: xs, ind =>
    indentL ind ++ prettyL x ind ++ ',' :: '\n' :: prettyItems (y :: xs) ind

/-- Object members, one `"key": value` per line at indentation `ind`. -/
def prettyMembers : List (String × Json) → Nat → List Char
  | [], _ => []
  | [(k, v)], ind => indentL ind ++ (quoteL k ++ ':' :: ' ' :: prettyL v ind)
  | (k, v) :: m :: ms, ind =>
    indentL ind ++ (quoteL k ++ ':' :: ' ' :: prettyL v ind) ++
      ',' :: '\n' :: prettyMembers (m :: ms) ind

end

mutual

/-- Model of plain `JSON.stringify(v)` (no spacing), used for the payload's
`metadata` field. -/
def compactL : Json → List Char
  | .null => "null".data
  | .bool true => "true".data
  | .bool false => "false".data
  | .num n => intChars n
  | .str s => quoteL s
  | .arr xs => '[' :: (compactItems xs ++ [']'])
  | .obj ms => '\x7b' :: (compactMembers ms ++ ['\x7d'])

/-- Compact array items, comma-separated. -/
def compactItems : List Json → List Char
  | [] => []
  | [x] => compactL x
  | x :: y :: xs => compactL x ++ ',' :: compactItems (y :: xs)

/-- Compact object members, comma-separated. -/
def compactMembers : List (String × Json) → List Char
  | [] => []
  | [(k, v)] => quoteL k ++ ':' :: compactL v
  | (k, v) :: m :: ms => quoteL k ++ ':' :: compactL v ++ ',' :: compactMembers (m :: ms)

end

/-- JavaScript `String(v)` on a JSON scalar (the decoder's last JSON case;
only reached for `null`, booleans and numbers). -/
def scalarChars : Json → List Char
  | .null => "null".data
  | .bool true => "true".data
  | .bool false => "false".data
  | .num n => intChars n
  | .str s => s.data
  | .arr _ => []
  | .obj _ => []

/-! ### The JSON parser (`JSON.parse`)

Recursive descent over the character list. `fuel` only bounds nesting-style
recursion and strictly exceeds the input length at the top entry point, so it
never cuts a parse short. Failures are `none` (the source wraps `JSON.parse`
in `try`/`catch`). -/

/-- Numeric value of a hex digit character, if it is one. -/
def hexVal (c : Char) : Option Nat :=
  if '0' ≤ c && c ≤ '9' then some (c.toNat - 48)
  else if 'a' ≤ c && c ≤ 'f' then some (c.toNat - 87)
  else if 'A' ≤ c && c ≤ 'F' then some (c.toNat - 55)
  else none

/-- The one-character JSON escapes. -/
def shortEscape (c : Char) : Option Char :=
  match c with
  | '"' => some '"'
  | '\\' => some '\\'
  | '/' => some '/'
  | 'b' => some '\x08'
  | 'f' => some '\x0c'
  | 'n' => some '\n'
  | 'r' => some '\r'
  | 't' => some '\t'
  | _ => none

/-- Value of a `\uXXXX` escape's four hex digits. -/
def hex4 (a b c d : Char) : Option Nat :=
  match hexVal a, hexVal b, hexVal c, hexVal d with
  | some x, some y, some z, some w => some (((x * 16 + y) * 16 + z) * 16 + w)
  | _, _, _, _ => none

mutual

/-- Body of a JSON string literal after the opening quote: characters up to
the closing quote, undoing escapes. Unpaired surrogate escapes are rejected
(they denote UTF-16 code units no unicode scalar value carries); a high and
low surrogate escape pair combines into the astral code point, as in
JavaScript. Raw control characters are rejected per the JSON grammar. -/
def parseStrBody : List Char → List Char → Option (String × List Char)
  | acc, '"' :: rest => some (⟨acc.reverse⟩, rest)
  | acc, '\\' :: rest => parseStrSlash acc rest
  | acc, c :: rest => if c.toNat < 32 then none else parseStrBody (c :: acc) rest
  | _, [] => none

/-- After a backslash: a `\uXXXX` escape or a one-character escape. -/
def parseStrSlash : List Char → List Char → Option (String × List Char)
  | acc, 'u' :: a :: b :: c :: d :: rest =>
    (match hex4 a b c d with
    | none => none
    | some n =>
      if n < 0xd800 || 0xdfff < n then parseStrBody (Char.ofNat n :: acc) rest
      else if n ≤ 0xdbff then parseStrLowSur n acc rest
      else none)
  | acc, e :: rest =>
    (match shortEscape e with
    | some ch => parseStrBody (ch :: acc) rest
    | none => none)
  | _, [] => none

/-- After a high surrogate escape `n`: requires the matching low surrogate
escape and combines the pair into the astral code point. -/
def parseStrLowSur : Nat → List Char → List Char → Option (String × List Char)
  | n, acc, '\\' :: 'u' :: a :: b :: c :: d :: rest =>
    (match hex4 a b c d with
    | some m =>
      if 0xdc00 ≤ m && m ≤ 0xdfff then
        parseStrBody (Char.ofNat (0x10000 + (n - 0xd800) * 0x400 + (m - 0xdc00)) :: acc) rest
      else none
    | none => none)
  | _, _, _ => none

end

/-- Longest leading run of decimal digits, and the remainder. -/
def takeDigs : List Char → List Char × List Char
  | c :: cs =>
    if isDigitC c then
      let (ds, r) := takeDigs cs
      (c :: ds, r)
    else ([], c :: cs)
  | [] => ([], [])

/-- Numeric value of a digit run. -/
def digsVal (ds : List Char) : Nat :=
  ds.foldl (fun acc c => acc * 10 + (c.toNat - 48)) 0

/-- Parse a JSON number. The JSON grammar's integer part (no leading zeros);
a following `.`, `e` or `E` (a fractional or exponent literal) falls outside
the exact-integer model and is rejected. -/
def parseNumL (cs : List Char) : Option (Int × List Char) :=
  let (neg, cs1) : Bool × List Char :=
    match cs with
    | c :: r => if c = '-' then (true, r) else (false, cs)
    | [] => (false, cs)
  match takeDigs cs1 with
  | ([], _) => none
  | (d :: ds, rest) =>
    if d = '0' && !ds.isEmpty then none
    else
      match rest with
      | c :: _ =>
        if c = '.' || c = 'e' || c = 'E' then none
        else some (Int.ofNat (digsVal (d :: ds)) * (if neg then -1 else 1), rest)
      | [] => some (Int.ofNat (digsVal (d :: ds)) * (if neg then -1 else 1), rest)

/-- Define (or redefine) a property, as JavaScript object construction does:
a repeated key keeps its original position and takes the new value; a fresh
key is appended. -/
def setField (l : List (String × Json)) (k : String) (v : Json) : List (String × Json) :=
  if l.any (fun p => p.1 = k) then l.map (fun p => if p.1 = k then (k, v) else p)
  else l ++ [(k, v)]

/-- Build the object a member list denotes, collapsing duplicate keys
last-wins in first position, as `JSON.parse` does. -/
def buildObj (ms : List (String × Json)) : List (String × Json) :=
  ms.foldl (fun acc kv => setField acc kv.1 kv.2) []

mutual

/-- Parse one JSON value, leading whitespace allowed. -/
def parseVal : Nat → List Char → Option (Json × List Char)
  | 0, _ => none
  | fuel + 1, cs =>
    match skipWsL cs with
    | 'n' :: 'u' :: 'l' :: 'l' :: r => some (.null, r)
    | 't' :: 'r' :: 'u' :: 'e' :: r => some (.bool true, r)
    | 'f' :: 'a' :: 'l' :: 's' :: 'e' :: r => some (.bool false, r)
    | '"' :: r =>
      (match parseStrBody [] r with
      | some (s, r2) => some (.str s, r2)
      | none => none)
    | '[' :: r =>
      (match skipWsL r with
      | ']' :: r2 => some (.arr [], r2)
      | cs2 =>
        match parseItems fuel cs2 with
        | some (xs, r2) => some (.arr xs, r2)
        | none => none)
    | '\x7b' :: r =>
      (match skipWsL r with
      | '\x7d' :: r2 => some (.obj [], r2)
      | cs2 =>
        match parseMems fuel cs2 with
        | some (ms, r2) => some (.obj (buildObj ms), r2)
        | none => none)
    | c :: r =>
      if c = '-' || isDigitC c then
        match parseNumL (c :: r) with
        | some (n, r2) => some (.num n, r2)
        | none => none
      else none
    | [] => none

/-- One or more comma-separated array items, then the closing bracket. -/
def parseItems : Nat → List Char → Option (List Json × List Char)
  | 0, _ => none
  | fuel + 1, cs =>
    match parseVal fuel cs with
    | none => none
    | some (v, r) =>
      match skipWsL r with
      | ',' :: r2 =>
        (match parseItems fuel r2 with
        | some (vs, r3) => some (v :: vs, r3)
        | none => none)
      | ']' :: r2 => some ([v], r2)
      | _ => none

/-- One or more `"key": value` members, then the closing brace. -/
def parseMems : Nat → List Char → Option (List (String × Json) × List Char)
  | 0, _ => none
  | fuel + 1, cs =>
    match skipWsL cs with
    | '"' :: r =>
      (match parseStrBody [] r with
      | none => none
      | some (key, r1) =>
        match skipWsL r1 with
        | ':' :: r2 =>
          (match parseVal fuel r2 with
          | none => none
          | some (v, r3) =>
            match skipWsL r3 with
            | ',' :: r4 =>
              (match parseMems fuel r4 with
              | some (ms, r5) => some ((key, v) :: ms, r5)
              | none => none)
            | '\x7d' :: r4 => some ([(key, v)], r4)
            | _ => none)
        | _ => none)
    | _ => none

end

/-- Parse a complete JSON document: one value and nothing but whitespace
after it. The fuel strictly exceeds the input length, so it never runs out. -/
def parseJsonL (l : List Char) : Option Json :=
  match parseVal (l.length + 1) l with
  | some (j, r) => if (skipWsL r).isEmpty then some j else none
  | none => none

/-! ### Key well-formedness (what `JSON.parse` output satisfies) -/

/-- Distinctness of an object member list's keys. -/
def keysDistinct : List (String × Json) → Bool
  | [] => true
  | (k, _) :: rest => !rest.any (fun p => p.1 = k) && keysDistinct rest

mutual

/-- Every object reachable in the value has distinct keys (true of anything
`JSON.parse` returns). -/
def wfVal : Json → Bool
  | .null => true
  | .bool _ => true
  | .num _ => true
  | .str _ => true
  | .arr xs => wfItems xs
  | .obj ms => keysDistinct ms && wfMems ms

/-- `wfVal` over a list of items. -/
def wfItems : List Json → Bool
  | [] => true
  | x :: xs => wfVal x && wfItems xs

/-- `wfVal` over a member list's values. -/
def wfMems : List (String × Json) → Bool
  | [] => true
  | (_, v) :: ms => wfVal v && wfMems ms

end

/-! ### A small HTML model (`DOMParser` / `textContent` / `querySelector`)

The decoder only asks three things of the browser's HTML parser: the
document's visible text (`textContent`), the first `iframe` element carrying
a `srcdoc` attribute, and that attribute's value. A flat tokenizer —
character data and tags with attributes, quote-aware — models exactly that.
Tag and attribute names are lower-cased as the HTML parser does; character
references are kept verbatim. -/

/-- Whitespace in the HTML tokenizer's attribute syntax. -/
def isHtmlWs (c : Char) : Bool :=
  c == ' ' || c == '\t' || c == '\n' || c == '\r' || c == '\x0c'

/-- Characters allowed in a tag name. -/
def isTagNameChar (c : Char) : Bool := c.isAlpha || isDigitC c

/-- A flat HTML token: character data, or a tag with its attributes. -/
inductive HtmlTok where
  | text (s : List Char)
  | tag (name : List Char) (attrs : List (List Char × List Char)) (closing : Bool)

/-- Character data up to the next `<`, and the remainder. -/
def takeTextRun : List Char → List Char × List Char
  | [] => ([], [])
  | c :: cs =>
    if c = '<' then ([], c :: cs)
    else
      let (t, r) := takeTextRun cs
      (c :: t, r)

/-- A quoted attribute value: characters up to the closing quote `q`,
consuming it. -/
def takeAttrVal (q : Char) : List Char → List Char × List Char
  | [] => ([], [])
  | c :: cs =>
    if c = q then ([], cs)
    else
      let (v, r) := takeAttrVal q cs
      (c :: v, r)

/-- Scan a tag's attribute list up to the closing `>`. Attribute names are
lower-cased; values may be double-quoted, single-quoted, or bare; a
valueless attribute gets the empty value, as `getAttribute` reports it. -/
def scanAttrs : Nat → List Char → List (List Char × List Char) × List Char
  | 0, l => ([], l)
  | fuel + 1, l =>
    match l.dropWhile isHtmlWs with
    | [] => ([], [])
    | '>' :: r => ([], r)
    | '/' :: r => scanAttrs fuel r
    | l1 =>
      let (nm, r1) := l1.span fun c => !isHtmlWs c && c ≠ '=' && c ≠ '>' && c ≠ '/'
      if nm.isEmpty then scanAttrs fuel l1.tail
      else
        match r1.dropWhile isHtmlWs with
        | '=' :: r3 =>
          (match r3.dropWhile isHtmlWs with
          | '"' :: r5 =>
            let (v, r6) := takeAttrVal '"' r5
            let (rest, rr) := scanAttrs fuel r6
            ((toLowerL nm, v) :: rest, rr)
          | '\x27' :: r5 =>
            let (v, r6) := takeAttrVal '\x27' r5
            let (rest, rr) := scanAttrs fuel r6
            ((toLowerL nm, v) :: rest, rr)
          | r4 =>
            let (v, r5) := r4.span fun c => !isHtmlWs c && c ≠ '>'
            let (rest, rr) := scanAttrs fuel r5
            ((toLowerL nm, v) :: rest, rr))
        | r2 =>
          let (rest, rr) := scanAttrs fuel r2
          ((toLowerL nm, []) :: rest, rr)

/-- Tokenize HTML: text runs and tags. A `<` not followed by a name is
character data, as in the HTML parsing algorithm. -/
def tokenizeAux : Nat → List Char → List HtmlTok
  | 0, _ => []
  | _, [] => []
  | fuel + 1, '<' :: rest =>
    let (closing, r1) : Bool × List Char :=
      match rest with
      | '/' :: r => (true, r)
      | _ => (false, rest)
    let (nm, r2) := r1.span isTagNameChar
    if nm.isEmpty then
      let (t, r) := takeTextRun rest
      .text ('<' :: t) :: tokenizeAux fuel r
    else
      let (attrs, r3) := scanAttrs fuel r2
      .tag (toLowerL nm) attrs closing :: tokenizeAux fuel r3
  | fuel + 1, l =>
    let (t, r) := takeTextRun l
    .text t :: tokenizeAux fuel r

/-- Tokenize a whole input (the fuel strictly exceeds its length). -/
def tokenizeHtml (l : List Char) : List HtmlTok := tokenizeAux (l.length + 1) l

/-- Concatenated character data: the model of `document.body.textContent`. -/
def textContentOf (toks : List HtmlTok) : List Char :=
  toks.foldr (fun tok acc => match tok with | .text s => s ++ acc | _ => acc) []

/-- First attribute with the given (lower-case) name. -/
def attrLookup : List (List Char × List Char) → List Char → Option (List Char)
  | [], _ => none
  | (k, v) :: rest, name => if k = name then some v else attrLookup rest name

/-- Model of `doc.querySelector("iframe[srcdoc]")?.getAttribute("srcdoc")`:
the `srcdoc` value of the first opening `iframe` tag that carries one. -/
def findIframeSrcdoc : List HtmlTok → Option (List Char)
  | [] => none
  | .tag nm attrs false :: rest =>
    if nm = "iframe".data then
      match attrLookup attrs "srcdoc".data with
      | some v => some v
      | none => findIframeSrcdoc rest
    else findIframeSrcdoc rest
  | _ :: rest => findIframeSrcdoc rest

/-! ### The response decoder (`parseWebhookText`) -/

/-- Truthiness of `contentType && contentType.includes("application/json")`. -/
def ctHasJson : Option (List Char) → Bool
  | some ct => containsSub ct "application/json".data
  | none => false

/-- The structural heuristic `/^[\[\x7b\"]/.test(trimmed)`. -/
def startsJsonTok (trimmed : List Char) : Bool :=
  match trimmed with
  | c :: _ => c = '[' || c = '\x7b' || c = '"'
  | [] => false

/-- A property value when it is a string (`typeof x === "string"`). -/
def strOfProp : Option Json → Option String
  | some (.str s) => some s
  | _ => none

/-- The decoder's first probe: a top-level `reply` string field. -/
def replyOf (parsed : Json) : Option String := strOfProp (parsed.prop "reply")

/-- The decoder's second probe: `data` is a record and `data.reply` a string. -/
def dataReplyOf (parsed : Json) : Option String :=
  match parsed.prop "data" with
  | some d => if d.isRec then strOfProp (d.prop "reply") else none
  | none => none

/-- The decoder's third probe: `choices` is an array whose first element is a
record with a record `message` whose `content` is a string. -/
def choicesContentOf (parsed : Json) : Option String :=
  match parsed.prop "choices" with
  | some (.arr items) =>
    (match items.head? with
    | some first =>
      if first.isRec then
        match first.prop "message" with
        | some msg => if msg.isRec then strOfProp (msg.prop "content") else none
        | none => none
      else none
    | none => none)
  | _ => none

/-- The record cascade of `parseWebhookText` lines 75–87: `reply`, else
`data.reply`, else `choices[0].message.content`, else a newline plus the
two-space pretty dump of the whole value. -/
def recCascade (parsed : Json) : List Char :=
  match replyOf parsed with
  | some r => r.data
  | none =>
    match dataReplyOf parsed with
    | some r => r.data
    | none =>
      match choicesContentOf parsed with
      | some r => r.data
      | none => '\n' :: prettyL parsed 0

/-- Display text for a parsed JSON value (`parseWebhookText` lines 73–89):
a string verbatim; a record through the cascade; any other scalar through
`String(parsed)`. -/
def jsonToDisplay : Json → List Char
  | .str s => s.data
  | .obj ms => recCascade (.obj ms)
  | .arr xs => recCascade (.arr xs)
  | j => scalarChars j

/-- The HTML/plain fallback (`parseWebhookText` lines 95–117), reached when
the input is not classified as JSON or `JSON.parse` failed. -/
def htmlOrPlainL (t trimmed : List Char) : List Char :=
  let fallback := if t.isEmpty then "(No response body)".data else t
  if trimmed.head? = some '<' then
    let lower := toLowerL trimmed
    if containsSub lower "<iframe".data && containsSub lower "srcdoc=".data then
      let src := (findIframeSrcdoc (tokenizeHtml trimmed)).getD []
      if !src.isEmpty then
        let plain := textContentOf (tokenizeHtml src)
        if !(jsTrimL plain).isEmpty then jsTrimL plain else []
      else []
    else
      let plain := textContentOf (tokenizeHtml trimmed)
      if !(jsTrimL plain).isEmpty then jsTrimL plain else fallback
  else fallback

/-- The decoder `parseWebhookText(text, contentType)`, over character lists:
classify as JSON by content type or leading character, parse and display;
on parse failure or a non-JSON body fall through to HTML/plain handling. -/
def parseWebhookTextL (text : List Char) (contentType : Option (List Char)) : List Char :=
  let trimmed := jsTrimL text
  let looksJson := ctHasJson contentType || startsJsonTok trimmed
  if looksJson then
    match parseJsonL trimmed with
    | some parsed => jsonToDisplay parsed
    | none => htmlOrPlainL text trimmed
  else htmlOrPlainL text trimmed

/-- The decoder at the `String` interface of the source contract. -/
def parseWebhookText (text : String) (contentType : Option String) : String :=
  ⟨parseWebhookTextL text.data (contentType.map String.data)⟩

/-- JavaScript `trim()` at the `String` interface. -/
def jsTrimS (s : String) : String := ⟨jsTrimL s.data⟩

/-- `JSON.parse` at the `String` interface (`none` for a thrown
`SyntaxError`). -/
def parseJsonS (s : String) : Option Json := parseJsonL s.data

/-! ### The conversation store and the send flow (`handleSend`) -/

/-- Message roles, as in the source's `Role` union. -/
inductive Role where
  | user
  | assistant
  | system
deriving DecidableEq

/-- A log entry, as in the source's `ChatMessage`. -/
structure ChatMessage where
  id : String
  role : Role
  content : String
  ts : Nat
deriving DecidableEq

/-- The placeholder resolution step
`prev.map(m => m.id === waitingId ? ({...m, content}) : m)`: rewrite the
content of every message whose id matches, leave the rest alone. -/
def resolveMsg (log : List ChatMessage) (targetId : String) (c : String) : List ChatMessage :=
  log.map fun m => if m.id = targetId then { m with content := c } else m

/-- The fixed demo fallback text of the `catch` branch. -/
def demoText : String :=
  "(Demo) I couldn’t reach your n8n webhook. once it’s running, set the URL in Settings.\n\nSample response: \"I have checked availability for those dates. We have a Deluxe Suite available.\""

/-- The pending placeholder content. -/
def pendingDots : String := "…"

/-- The success-path resolution content `reply || "(empty)"`. -/
def resolvedReply (reply : String) : String :=
  if reply = "" then "(empty)" else reply

/-- The user entry's content:
`body + (image ? " [Image Attached]" : "") + (audio ? " [Audio Attached]" : "")`. -/
def userContent (body : String) (hasImage hasAudio : Bool) : String :=
  body ++ (if hasImage then " [Image Attached]" else "") ++
    (if hasAudio then " [Audio Attached]" else "")

/-- The synchronous phase of a turn, before the network call: append the user
message, then the pending assistant placeholder with the captured `waitingId`. -/
def handleSendPre (uid wid : String) (uts pts : Nat) (body : String)
    (hasImage hasAudio : Bool) (log : List ChatMessage) : List ChatMessage :=
  log ++ [⟨uid, .user, userContent body hasImage hasAudio, uts⟩,
    ⟨wid, .assistant, pendingDots, pts⟩]

/-- The outcome of the transport call `fetch` + `res.text()`: the raw body
and declared content type, or a thrown network error. -/
inductive TransportResult where
  | ok (text : String) (contentType : Option String)
  | netError

/-- One whole `handleSend` turn. The fresh ids `uid`/`wid` and timestamps
stand for the `genId()`/`Date.now()` calls; `textArg` is the optional `text`
parameter (quick replies, voice), `inputBox` the current input state. An
empty draft returns the log unchanged; otherwise the user entry and
placeholder are appended, and the placeholder is resolved with the decoded
reply (`|| "(empty)"`), or with the demo text when the webhook URL is empty
or the transport throws. -/
def handleSend (uid wid : String) (uts pts : Nat) (textArg : Option String)
    (inputBox : String) (hasImage hasAudio : Bool) (webhookUrl : String)
    (transport : TransportResult) (log : List ChatMessage) : List ChatMessage :=
  let body := jsTrimS (textArg.getD inputBox)
  if body = "" && !hasImage && !hasAudio then log
  else
    let log2 := handleSendPre uid wid uts pts body hasImage hasAudio log
    if webhookUrl = "" then resolveMsg log2 wid demoText
    else
      match transport with
      | .ok t ct => resolveMsg log2 wid (resolvedReply (parseWebhookText t ct))
      | .netError => resolveMsg log2 wid demoText

/-! ### The multipart payload (`FormData` composition) -/

/-- A binary artifact, as the `File` values the code attaches. -/
structure JsFile where
  name : String
  size : Nat
  mime : String
deriving DecidableEq

/-- A multipart field value: a string or a file part. -/
inductive FormValue where
  | str (s : String)
  | file (f : JsFile)
deriving DecidableEq

/-- The composed request body (`handleSend` lines 189–202): `type` by
audio-over-image precedence, then `text`, `source`, `chatId`, the
JSON-encoded `metadata`, and the binary parts present. -/
def composeFormData (body : String) (image audio : Option JsFile)
    (chatId : String) (now : Nat) : List (String × FormValue) :=
  let msgType := if audio.isSome then "audio" else if image.isSome then "image" else "text"
  [("type", .str msgType), ("text", .str body), ("source", .str "booking-bot"),
    ("chatId", .str chatId),
    ("metadata", .str ⟨compactL (.obj
      [("ts", .num now), ("client", .str "web"), ("chatId", .str chatId)])⟩)] ++
  (match image with
  | some f => [("image", .file f)]
  | none => []) ++
  (match audio with
  | some f => [("audio", .file f)]
  | none => [])

/-- `FormData.get`: the first value under a field name. -/
def formGet (fd : List (String × FormValue)) (key : String) : Option FormValue :=
  match fd with
  | [] => none
  | (k, v) :: rest => if k = key then some v else formGet rest key

/-! ### The recording lifecycle (`toggleRecording`) -/

/-- Observable effects of the recorder's callbacks, in order. -/
inductive RecEffect where
  | sendVoice (f : JsFile)
  | trackStop (trackId : Nat)
  | alertMicDenied
deriving DecidableEq

/-- The recording state: the `recording` flag and, when active, the acquired
stream's track ids and the chunks delivered so far. -/
structure RecState where
  recording : Bool
  tracks : List Nat
deriving DecidableEq

/-- The `recorder.onstop` handler: build the blob from the captured chunks
(zero chunks give a zero-length blob), wrap it as `voice-recording.webm`,
hand it to `handleSend`, then stop every stream track. Straight-line: both
effects happen for every chunk list. -/
def recorderOnStop (chunks : List Nat) (tracks : List Nat) : List RecEffect :=
  let blobSize := chunks.foldl (· + ·) 0
  RecEffect.sendVoice ⟨"voice-recording.webm", blobSize, "audio/webm"⟩ ::
    tracks.map RecEffect.trackStop

/-- One `toggleRecording` call. When recording, `stop()` fires `onstop` with
the chunks captured so far. When idle, `acquired` is the `getUserMedia`
result: a track list on success, `none` when access is denied, which alerts
and leaves the state idle. -/
def toggleRecording (s : RecState) (acquired : Option (List Nat))
    (chunks : List Nat) : RecState × List RecEffect :=
  if s.recording then
    ({ recording := false, tracks := [] }, recorderOnStop chunks s.tracks)
  else
    match acquired with
    | some tr => ({ recording := true, tracks := tr }, [])
    | none => (s, [RecEffect.alertMicDenied])

/-! ### Digit lemmas -/

theorem natDigsAux_congr : ∀ f1 : Nat, ∀ f2 n : Nat, n < f1 → n < f2 →
    natDigsAux f1 n = natDigsAux f2 n := by
  intro f1
  induction f1 with
  | zero => intro f2 n h1 _; omega
  | succ f ih =>
    intro f2 n h1 h2
    match f2, h2 with
    | f2 + 1, _ =>
      simp only [natDigsAux]
      by_cases h10 : n < 10
      · simp [h10]
      · simp only [if_neg h10]
        rw [ih f2 (n / 10) (by omega) (by omega)]

theorem natDigs_unfold (n : Nat) :
    natDigs n = if n < 10 then [digitChar n]
      else natDigs (n / 10) ++ [digitChar (n % 10)] := by
  have h1 : natDigs n =
      if n < 10 then [digitChar n] else natDigsAux n (n / 10) ++ [digitChar (n % 10)] := rfl
  rw [h1]
  by_cases h10 : n < 10
  · simp [h10]
  · simp only [if_neg h10]
    rw [natDigsAux_congr n (n / 10 + 1) (n / 10) (by omega) (by omega)]
    rfl

theorem natDigs_ne_nil (n : Nat) : natDigs n ≠ [] := by
  rw [natDigs_unfold]
  by_cases h : n < 10 <;> simp [h]

theorem digitChar_toNat (k : Nat) (h : k < 10) : (digitChar k).toNat = 48 + k := by
  interval_cases k <;> decide

theorem digitChar_isDigit (k : Nat) (h : k < 10) : isDigitC (digitChar k) = true := by
  interval_cases k <;> decide

theorem natDigs_all_digits (n : Nat) : ∀ c ∈ natDigs n, isDigitC c = true := by
  induction n using Nat.strongRecOn with
  | _ n ih =>
    rw [natDigs_unfold]
    by_cases h : n < 10
    · simp only [if_pos h, List.mem_singleton]
      rintro c rfl
      exact digitChar_isDigit n h
    · simp only [if_neg h, List.mem_append, List.mem_singleton]
      rintro c (hc | rfl)
      · exact ih (n / 10) (by omega) c hc
      · exact digitChar_isDigit (n % 10) (by omega)

theorem digitChar_eq_zero (k : Nat) (h : k < 10) : digitChar k = '0' ↔ k = 0 := by
  interval_cases k <;> simp <;> decide

theorem natDigs_head_ne_zero (n : Nat) (hn : n ≠ 0) :
    ∀ ds, natDigs n ≠ '0' :: ds := by
  induction n using Nat.strongRecOn with
  | _ n ih =>
    intro ds hds
    rw [natDigs_unfold] at hds
    by_cases h : n < 10
    · rw [if_pos h] at hds
      simp only [List.cons.injEq] at hds
      exact hn ((digitChar_eq_zero n h).mp hds.1)
    · rw [if_neg h] at hds
      match heq : natDigs (n / 10), natDigs_ne_nil (n / 10) with
      | c :: t, _ =>
        rw [heq] at hds
        simp only [List.cons_append, List.cons.injEq] at hds
        exact ih (n / 10) (by omega) (by omega) t (by rw [heq, hds.1])

theorem digsVal_append_one (ds : List Char) (c : Char) :
    digsVal (ds ++ [c]) = digsVal ds * 10 + (c.toNat - 48) := by
  simp [digsVal, List.foldl_append]

theorem digsVal_natDigs (n : Nat) : digsVal (natDigs n) = n := by
  induction n using Nat.strongRecOn with
  | _ n ih =>
    rw [natDigs_unfold]
    by_cases h : n < 10
    · simp only [if_pos h]
      simp [digsVal, digitChar_toNat n h]
    · simp only [if_neg h]
      rw [digsVal_append_one, ih (n / 10) (by omega), digitChar_toNat (n % 10) (by omega)]
      omega

/-! ### Number parsing inverts integer printing -/

/-- A remainder that cannot extend a printed integer: empty, or headed by a
character that is neither a digit nor `.`, `e`, `E`. -/
def numDelim : List Char → Bool
  | [] => true
  | c :: _ => !(isDigitC c || c = '.' || c = 'e' || c = 'E')

theorem takeDigs_stop {cs : List Char} (h : numDelim cs = true) :
    takeDigs cs = ([], cs) := by
  match cs with
  | [] => rfl
  | c :: t =>
    simp only [numDelim, Bool.not_eq_true', Bool.or_eq_false_iff,
      decide_eq_false_iff_not] at h
    simp [takeDigs, h.1.1.1]

theorem takeDigs_run (ds : List Char) (hds : ∀ c ∈ ds, isDigitC c = true)
    (rest : List Char) (hrest : takeDigs rest = ([], rest)) :
    takeDigs (ds ++ rest) = (ds, rest) := by
  induction ds with
  | nil => simpa using hrest
  | cons c t ih =>
    have hc : isDigitC c = true := hds c (by simp)
    have ht := ih fun x hx => hds x (by simp [hx])
    simp [takeDigs, hc, ht]

theorem nonDigit_head {c : Char} {t : List Char} (h : isDigitC c = false) :
    takeDigs (c :: t) = ([], c :: t) := by
  simp [takeDigs, h]

theorem numDelim_spec {c : Char} {t : List Char} (h : numDelim (c :: t) = true) :
    isDigitC c = false ∧ c ≠ '.' ∧ c ≠ 'e' ∧ c ≠ 'E' := by
  simp only [numDelim, Bool.not_eq_true', Bool.or_eq_false_iff,
    decide_eq_false_iff_not] at h
  exact ⟨h.1.1.1, h.1.1.2, h.1.2, h.2⟩

theorem parseNumL_intChars (i : Int) (rest : List Char) (hr : numDelim rest = true) :
    parseNumL (intChars i ++ rest) = some (i, rest) := by
  have hdigs := natDigs_all_digits i.natAbs
  have htd : takeDigs (natDigs i.natAbs ++ rest) = (natDigs i.natAbs, rest) :=
    takeDigs_run _ hdigs _ (takeDigs_stop hr)
  obtain ⟨d, ds, hds⟩ : ∃ d ds, natDigs i.natAbs = d :: ds :=
    match h : natDigs i.natAbs, natDigs_ne_nil i.natAbs with
    | c :: t, _ => ⟨c, t, rfl⟩
  have hlead : (d = '0' && !ds.isEmpty) = false := by
    by_cases hz : i.natAbs = 0
    · have h0 : natDigs 0 = ['0'] := by decide
      rw [hz, h0] at hds
      simp only [List.cons.injEq] at hds
      rw [← hds.2]
      simp
    · by_cases hd0 : d = '0'
      · exact absurd (hd0 ▸ hds) (natDigs_head_ne_zero i.natAbs hz ds)
      · simp [hd0]
  have hval : Int.ofNat (digsVal (d :: ds)) = Int.ofNat i.natAbs := by
    rw [← hds, digsVal_natDigs]
  by_cases hneg : i < 0
  · have harg : intChars i ++ rest = '-' :: (natDigs i.natAbs ++ rest) := by
      simp [intChars, hneg]
    rw [harg, hds]
    rw [hds] at htd
    simp only [parseNumL, reduceIte, htd, hlead, Bool.false_eq_true, if_false]
    have hmul : Int.ofNat (digsVal (d :: ds)) * -1 = i := by
      rw [hval, Int.ofNat_eq_natCast]
      omega
    cases rest with
    | nil =>
      show some (Int.ofNat (digsVal (d :: ds)) * -1, ([] : List Char)) = some (i, [])
      rw [hmul]
    | cons c t =>
      obtain ⟨_, hdot, he, hE⟩ := numDelim_spec hr
      show (if c = '.' || c = 'e' || c = 'E' then none
          else some (Int.ofNat (digsVal (d :: ds)) * -1, c :: t)) = some (i, c :: t)
      rw [if_neg (by simp [hdot, he, hE]), hmul]
  · have hd_digit : isDigitC d = true := hdigs d (hds ▸ List.mem_cons_self d ds)
    have hdm : d ≠ '-' := by
      rintro rfl
      exact absurd hd_digit (by decide)
    have harg : intChars i ++ rest = d :: (ds ++ rest) := by
      simp [intChars, hneg, hds]
    rw [harg]
    have htd2 : takeDigs (d :: (ds ++ rest)) = (d :: ds, rest) := by
      rw [hds] at htd
      simpa using htd
    simp only [parseNumL, if_neg hdm, htd2]
    simp only [hlead, Bool.false_eq_true, if_false]
    have hmul : Int.ofNat (digsVal (d :: ds)) * 1 = i := by
      rw [hval, Int.ofNat_eq_natCast]
      omega
    cases rest with
    | nil =>
      show some (Int.ofNat (digsVal (d :: ds)) * 1, ([] : List Char)) = some (i, [])
      rw [hmul]
    | cons c t =>
      obtain ⟨_, hdot, he, hE⟩ := numDelim_spec hr
      show (if c = '.' || c = 'e' || c = 'E' then none
          else some (Int.ofNat (digsVal (d :: ds)) * 1, c :: t)) = some (i, c :: t)
      rw [if_neg (by simp [hdot, he, hE]), hmul]

/-! ### String escaping inverts -/

theorem hexVal_hexDigit (d : Nat) (h : d < 16) : hexVal (hexDigit d) = some d := by
  interval_cases d <;> decide

theorem parseStrBody_escape (c : Char) (acc rest : List Char) :
    parseStrBody acc (escChar c ++ rest) = parseStrBody (c :: acc) rest := by
  rw [escChar.eq_def]
  split
  · rfl
  · rfl
  · rfl
  · rfl
  · rfl
  · rfl
  · rfl
  · rename_i h1 h2 h3 h4 h5 h6 h7
    by_cases hlt : c.toNat < 32
    · simp only [if_pos hlt, List.cons_append, List.nil_append]
      have h0 : hexVal '0' = some 0 := by decide
      have hh : hex4 '0' '0' (hexDigit (c.toNat / 16)) (hexDigit (c.toNat % 16)) =
          some c.toNat := by
        simp only [hex4, h0, hexVal_hexDigit _ (show c.toNat / 16 < 16 by omega),
          hexVal_hexDigit _ (show c.toNat % 16 < 16 by omega)]
        congr 1
        omega
      have hstep : parseStrBody acc ('\\' :: 'u' :: '0' :: '0' :: hexDigit (c.toNat / 16) ::
          hexDigit (c.toNat % 16) :: rest) = parseStrBody (Char.ofNat c.toNat :: acc) rest := by
        show (match hex4 '0' '0' (hexDigit (c.toNat / 16)) (hexDigit (c.toNat % 16)) with
          | none => none
          | some n =>
            if n < 0xd800 || 0xdfff < n then parseStrBody (Char.ofNat n :: acc) rest
            else if n ≤ 0xdbff then parseStrLowSur n acc rest
            else none) = parseStrBody (Char.ofNat c.toNat :: acc) rest
        rw [hh]
        show (if c.toNat < 0xd800 || 0xdfff < c.toNat then
            parseStrBody (Char.ofNat c.toNat :: acc) rest
          else if c.toNat ≤ 0xdbff then parseStrLowSur c.toNat acc rest
          else none) = parseStrBody (Char.ofNat c.toNat :: acc) rest
        rw [if_pos (by simp only [Bool.or_eq_true, decide_eq_true_eq]; omega)]
      rw [hstep, Char.ofNat_toNat]
    · simp only [if_neg hlt, List.cons_append, List.nil_append]
      have h1' : c ≠ '"' := fun h => h1 h
      have h2' : c ≠ '\\' := fun h => h2 h
      rw [parseStrBody.eq_def]
      simp [h1', h2', hlt]

theorem parseStrBody_quoted (cs : List Char) : ∀ acc rest : List Char,
    parseStrBody acc (cs.flatMap escChar ++ '"' :: rest) = some (⟨acc.reverse ++ cs⟩, rest) := by
  induction cs with
  | nil =>
    intro acc rest
    show parseStrBody acc ('"' :: rest) = some (⟨acc.reverse ++ []⟩, rest)
    rw [List.append_nil]
    rfl
  | cons c cs ih =>
    intro acc rest
    rw [List.flatMap_cons, List.append_assoc, parseStrBody_escape, ih]
    simp

theorem parseStrBody_quoteL (s : String) (rest : List Char) :
    parseStrBody [] (s.data.flatMap escChar ++ '"' :: rest) = some (s, rest) := by
  rw [parseStrBody_quoted]
  cases s
  simp

/-! ### Whitespace lemmas -/

theorem skipWsL_cons_not_ws {c : Char} (l : List Char) (h : isJsonWs c = false) :
    skipWsL (c :: l) = c :: l := by
  simp [skipWsL, h]

theorem skipWsL_append_ws (ws : List Char) (h : ∀ c ∈ ws, isJsonWs c = true) :
    ∀ l : List Char, skipWsL (ws ++ l) = skipWsL l := by
  induction ws with
  | nil => intro l; rfl
  | cons c t ih =>
    intro l
    have hc : isJsonWs c = true := h c (by simp)
    simp only [List.cons_append, skipWsL, hc, if_true]
    exact ih (fun x hx => h x (by simp [hx])) l

theorem indentL_all_ws (n : Nat) : ∀ c ∈ indentL n, isJsonWs c = true := by
  intro c hc
  have hc2 : c = ' ' := List.eq_of_mem_replicate (by simpa [indentL] using hc)
  subst hc2
  decide

theorem skipWsL_newline_indent (n : Nat) (l : List Char) :
    skipWsL ('\n' :: (indentL n ++ l)) = skipWsL l := by
  have h1 : skipWsL ('\n' :: (indentL n ++ l)) = skipWsL (indentL n ++ l) := by
    rw [skipWsL, if_pos (by decide)]
  rw [h1, skipWsL_append_ws _ (indentL_all_ws n)]

theorem skipWsL_idem (l : List Char) : skipWsL (skipWsL l) = skipWsL l := by
  induction l with
  | nil => rfl
  | cons c t ih =>
    by_cases h : isJsonWs c = true
    · simp [skipWsL, h, ih]
    · simp only [Bool.not_eq_true] at h
      rw [skipWsL_cons_not_ws t h, skipWsL_cons_not_ws t h]

theorem parseVal_skipWs (fuel : Nat) (cs : List Char) :
    parseVal (fuel + 1) cs = parseVal (fuel + 1) (skipWsL cs) := by
  simp only [parseVal]
  rw [skipWsL_idem]

theorem parseVal_drop_ws (fuel : Nat) (ws s : List Char)
    (h : ∀ c ∈ ws, isJsonWs c = true) :
    parseVal (fuel + 1) (ws ++ s) = parseVal (fuel + 1) s := by
  rw [parseVal_skipWs fuel (ws ++ s), skipWsL_append_ws ws h, ← parseVal_skipWs]

/-! ### Heads and tails of rendered values -/

theorem isDigitC_toNat {c : Char} (h : isDigitC c = true) :
    48 ≤ c.toNat ∧ c.toNat ≤ 57 := by
  simp only [isDigitC, Bool.and_eq_true, decide_eq_true_eq] at h
  obtain ⟨h1, h2⟩ := h
  constructor
  · exact h1
  · exact h2

theorem digit_not_jsonWs {c : Char} (h : isDigitC c = true) : isJsonWs c = false := by
  obtain ⟨h1, h2⟩ := isDigitC_toNat h
  simp only [isJsonWs, Bool.or_eq_false_iff, beq_eq_false_iff_ne]
  refine ⟨⟨⟨?_, ?_⟩, ?_⟩, ?_⟩ <;> (rintro rfl; revert h1 h2; decide)

theorem digit_not_trimWs {c : Char} (h : isDigitC c = true) : isTrimWs c = false := by
  obtain ⟨h1, h2⟩ := isDigitC_toNat h
  simp only [isTrimWs, Bool.or_eq_false_iff, beq_eq_false_iff_ne]
  refine ⟨⟨⟨⟨⟨⟨⟨?_, ?_⟩, ?_⟩, ?_⟩, ?_⟩, ?_⟩, ?_⟩, ?_⟩
  all_goals first
  | (rintro rfl; revert h1 h2; decide)
  | omega

theorem digit_ne {c : Char} (h : isDigitC c = true) :
    c ≠ 'n' ∧ c ≠ 't' ∧ c ≠ 'f' ∧ c ≠ '"' ∧ c ≠ '[' ∧ c ≠ '\x7b' ∧ c ≠ ']' ∧
      c ≠ '\x7d' ∧ c ≠ ',' ∧ c ≠ '-' := by
  obtain ⟨h1, h2⟩ := isDigitC_toNat h
  refine ⟨?_, ?_, ?_, ?_, ?_, ?_, ?_, ?_, ?_, ?_⟩ <;> (rintro rfl; revert h1 h2; decide)

theorem intChars_head (i : Int) :
    ∃ c t, intChars i = c :: t ∧ (c = '-' ∨ isDigitC c = true) := by
  by_cases hneg : i < 0
  · exact ⟨'-', natDigs i.natAbs, by simp [intChars, hneg], Or.inl rfl⟩
  · match hds : natDigs i.natAbs, natDigs_ne_nil i.natAbs with
    | d :: ds, _ =>
      refine ⟨d, ds, by simp [intChars, hneg, hds], Or.inr ?_⟩
      exact natDigs_all_digits i.natAbs d (hds ▸ List.mem_cons_self d ds)

theorem intChars_last (i : Int) :
    ∃ t c, intChars i = t ++ [c] ∧ isDigitC c = true := by
  rcases List.eq_nil_or_concat (natDigs i.natAbs) with h | ⟨t, c, h⟩
  · exact absurd h (natDigs_ne_nil i.natAbs)
  · refine ⟨(if i < 0 then ['-'] else []) ++ t, c, ?_, ?_⟩
    · rw [intChars, h, List.concat_eq_append, List.append_assoc]
    · exact natDigs_all_digits i.natAbs c (by rw [h, List.concat_eq_append]; simp)

/-- Every rendered value starts with a character that is not whitespace and
is none of the structural delimiters a parser branch could mistake it for. -/
theorem prettyL_head (j : Json) (ind : Nat) :
    ∃ c t, prettyL j ind = c :: t ∧ isJsonWs c = false ∧ isTrimWs c = false ∧
      c ≠ ']' ∧ c ≠ '\x7d' := by
  cases j with
  | null => exact ⟨'n', _, rfl, by decide, by decide, by decide, by decide⟩
  | bool b =>
    cases b with
    | true => exact ⟨'t', _, rfl, by decide, by decide, by decide, by decide⟩
    | false => exact ⟨'f', _, rfl, by decide, by decide, by decide, by decide⟩
  | num i =>
    obtain ⟨c, t, hct, hc⟩ := intChars_head i
    rcases hc with rfl | hd
    · exact ⟨'-', t, hct, by decide, by decide, by decide, by decide⟩
    · obtain ⟨_, _, _, _, _, _, h7, h8, _, _⟩ := digit_ne hd
      exact ⟨c, t, hct, digit_not_jsonWs hd, digit_not_trimWs hd, h7, h8⟩
  | str s => exact ⟨'"', _, rfl, by decide, by decide, by decide, by decide⟩
  | arr xs =>
    cases xs with
    | nil => exact ⟨'[', _, rfl, by decide, by decide, by decide, by decide⟩
    | cons x xs => exact ⟨'[', _, rfl, by decide, by decide, by decide, by decide⟩
  | obj ms =>
    cases ms with
    | nil => exact ⟨'\x7b', _, rfl, by decide, by decide, by decide, by decide⟩
    | cons m ms => exact ⟨'\x7b', _, rfl, by decide, by decide, by decide, by decide⟩

/-- Every rendered value ends with a character that is not whitespace. -/
theorem prettyL_last (j : Json) (ind : Nat) :
    ∃ t c, prettyL j ind = t ++ [c] ∧ isTrimWs c = false := by
  cases j with
  | null => exact ⟨['n', 'u', 'l'], 'l', rfl, by decide⟩
  | bool b =>
    cases b with
    | true => exact ⟨['t', 'r', 'u'], 'e', rfl, by decide⟩
    | false => exact ⟨['f', 'a', 'l', 's'], 'e', rfl, by decide⟩
  | num i =>
    obtain ⟨t, c, htc, hc⟩ := intChars_last i
    exact ⟨t, c, htc, digit_not_trimWs hc⟩
  | str s =>
    exact ⟨'"' :: s.data.flatMap escChar, '"', by simp [prettyL, quoteL], by decide⟩
  | arr xs =>
    cases xs with
    | nil => exact ⟨['['], ']', rfl, by decide⟩
    | cons x xs =>
      refine ⟨'[' :: '\n' :: (prettyItems (x :: xs) (ind + 2) ++ '\n' :: indentL ind), ']',
        ?_, by decide⟩
      simp [prettyL]
  | obj ms =>
    cases ms with
    | nil => exact ⟨['\x7b'], '\x7d', rfl, by decide⟩
    | cons m ms =>
      refine ⟨'\x7b' :: '\n' :: (prettyMembers (m :: ms) (ind + 2) ++ '\n' :: indentL ind),
        '\x7d', ?_, by decide⟩
      simp [prettyL]

/-! ### Object construction lemmas -/

theorem setField_fresh (acc : List (String × Json)) (k : String) (v : Json)
    (h : acc.any (fun p => p.1 = k) = false) : setField acc k v = acc ++ [(k, v)] := by
  simp only [setField, h, Bool.false_eq_true, if_false]

theorem keysDistinct_head_notin (acc : List (String × Json)) (k : String) (v : Json)
    (rest : List (String × Json)) (h : keysDistinct (acc ++ (k, v) :: rest) = true) :
    acc.any (fun p => p.1 = k) = false := by
  induction acc with
  | nil => rfl
  | cons q acc ih =>
    obtain ⟨k0, v0⟩ := q
    simp only [List.cons_append, keysDistinct, Bool.and_eq_true, Bool.not_eq_true'] at h
    obtain ⟨hany, hrest⟩ := h
    simp only [List.append_eq, List.any_append, List.any_cons, Bool.or_eq_false_iff] at hany
    have hk : (decide (k = k0)) = false := hany.2.1
    simp only [List.any_cons, Bool.or_eq_false_iff]
    constructor
    · simp only [decide_eq_false_iff_not] at hk ⊢
      exact fun hc => hk hc.symm
    · exact ih hrest

theorem buildObj_go (ms : List (String × Json)) : ∀ acc : List (String × Json),
    keysDistinct (acc ++ ms) = true →
    List.foldl (fun acc kv => setField acc kv.1 kv.2) acc ms = acc ++ ms := by
  induction ms with
  | nil =>
    intro acc _
    simp
  | cons m rest ih =>
    intro acc h
    obtain ⟨k, v⟩ := m
    have hfresh : acc.any (fun p => p.1 = k) = false := keysDistinct_head_notin acc k v rest h
    simp only [List.foldl_cons]
    rw [setField_fresh acc k v hfresh]
    have h2 : keysDistinct ((acc ++ [(k, v)]) ++ rest) = true := by
      rw [List.append_assoc]
      simpa using h
    rw [ih (acc ++ [(k, v)]) h2]
    simp

/-- On a member list with distinct keys — anything the printer emits —
object construction is the identity. -/
theorem buildObj_distinct (ms : List (String × Json)) (h : keysDistinct ms = true) :
    buildObj ms = ms := by
  have := buildObj_go ms [] (by simpa using h)
  simpa [buildObj] using this

theorem setField_mem {acc : List (String × Json)} {k : String} {v : Json}
    {p : String × Json} (hp : p ∈ setField acc k v) : p = (k, v) ∨ p ∈ acc := by
  by_cases h : acc.any (fun q => q.1 = k) = true
  · simp only [setField, h, if_true] at hp
    obtain ⟨q, hq, hqe⟩ := List.mem_map.mp hp
    by_cases hqk : q.1 = k
    · simp only [hqk, if_true] at hqe
      exact Or.inl hqe.symm
    · simp only [hqk, if_false] at hqe
      exact Or.inr (hqe ▸ hq)
  · simp only [Bool.not_eq_true] at h
    rw [setField_fresh acc k v h] at hp
    rcases List.mem_append.mp hp with h2 | h2
    · exact Or.inr h2
    · exact Or.inl (List.mem_singleton.mp h2)

theorem buildObj_mem {ms : List (String × Json)} {p : String × Json}
    (hp : p ∈ buildObj ms) : p ∈ ms := by
  rw [buildObj] at hp
  suffices h : ∀ acc : List (String × Json), p ∈ List.foldl
      (fun acc kv => setField acc kv.1 kv.2) acc ms → p ∈ acc ∨ p ∈ ms by
    rcases h [] hp with h2 | h2
    · exact absurd h2 (List.not_mem_nil p)
    · exact h2
  clear hp
  induction ms with
  | nil =>
    intro acc hp
    exact Or.inl hp
  | cons m rest ih =>
    intro acc hp
    simp only [List.foldl_cons] at hp
    rcases ih (setField acc m.1 m.2) hp with h2 | h2
    · rcases setField_mem h2 with h3 | h3
      · refine Or.inr ?_
        rw [h3]
        exact List.mem_cons_self m rest
      · exact Or.inl h3
    · exact Or.inr (List.mem_cons_of_mem m h2)

theorem setField_keys (acc : List (String × Json)) (k : String) (v : Json) :
    (setField acc k v).map Prod.fst =
      if acc.any (fun p => p.1 = k) then acc.map Prod.fst
      else acc.map Prod.fst ++ [k] := by
  by_cases h : acc.any (fun p => p.1 = k) = true
  · simp only [setField, h, if_true, List.map_map]
    refine List.map_congr_left ?_
    intro p _
    by_cases hp : p.1 = k
    · simp [Function.comp, hp]
    · simp [Function.comp, hp]
  · simp only [Bool.not_eq_true] at h
    simp [setField_fresh acc k v h, h]

theorem any_map_fst (l : List (String × Json)) (p : String → Bool) :
    (l.map Prod.fst).any p = l.any (fun q => p q.1) := by
  induction l with
  | nil => rfl
  | cons x xs ih => simp [List.any_cons, ih]

theorem keysDistinct_by_keys (l1 l2 : List (String × Json))
    (h : l1.map Prod.fst = l2.map Prod.fst) : keysDistinct l1 = keysDistinct l2 := by
  induction l1 generalizing l2 with
  | nil =>
    cases l2 with
    | nil => rfl
    | cons q t => simp at h
  | cons p t ih =>
    cases l2 with
    | nil => simp at h
    | cons q t2 =>
      obtain ⟨k1, v1⟩ := p
      obtain ⟨k2, v2⟩ := q
      simp only [List.map_cons, List.cons.injEq] at h
      obtain ⟨hk, ht⟩ := h
      subst hk
      have hany : t.any (fun p => p.1 = k1) = t2.any (fun p => p.1 = k1) := by
        have h1 := any_map_fst t (fun s => s = k1)
        have h2 := any_map_fst t2 (fun s => s = k1)
        rw [← h1, ← h2, ht]
      simp only [keysDistinct, hany, ih t2 ht]

theorem keysDistinct_snoc (acc : List (String × Json)) (k : String) (v : Json)
    (hd : keysDistinct acc = true) (hf : acc.any (fun p => p.1 = k) = false) :
    keysDistinct (acc ++ [(k, v)]) = true := by
  induction acc with
  | nil => rfl
  | cons q acc ih =>
    obtain ⟨k0, v0⟩ := q
    simp only [keysDistinct, Bool.and_eq_true, Bool.not_eq_true'] at hd
    simp only [List.any_cons, Bool.or_eq_false_iff] at hf
    simp only [List.cons_append, keysDistinct, Bool.and_eq_true, Bool.not_eq_true']
    constructor
    · simp only [List.append_eq, List.any_append, List.any_cons, List.any_nil,
        Bool.or_eq_false_iff]
      refine ⟨hd.1, ?_, trivial⟩
      simp only [decide_eq_false_iff_not] at hf ⊢
      exact fun hc => hf.1 hc.symm
    · exact ih hd.2 hf.2

theorem keysDistinct_setField (acc : List (String × Json)) (k : String) (v : Json)
    (hd : keysDistinct acc = true) : keysDistinct (setField acc k v) = true := by
  by_cases h : acc.any (fun p => p.1 = k) = true
  · have hkeys := setField_keys acc k v
    rw [if_pos h] at hkeys
    rw [keysDistinct_by_keys _ acc hkeys]
    exact hd
  · simp only [Bool.not_eq_true] at h
    rw [setField_fresh acc k v h]
    exact keysDistinct_snoc acc k v hd h

theorem keysDistinct_buildObj (ms : List (String × Json)) :
    keysDistinct (buildObj ms) = true := by
  rw [buildObj]
  suffices h : ∀ acc : List (String × Json), keysDistinct acc = true →
      keysDistinct (List.foldl (fun acc kv => setField acc kv.1 kv.2) acc ms) = true from
    h [] rfl
  induction ms with
  | nil => exact fun acc h => h
  | cons m rest ih =>
    intro acc h
    simp only [List.foldl_cons]
    exact ih _ (keysDistinct_setField acc m.1 m.2 h)

theorem wfItems_iff (l : List Json) :
    wfItems l = true ↔ ∀ x ∈ l, wfVal x = true := by
  induction l with
  | nil => simp [wfItems]
  | cons x xs ih => simp [wfItems, Bool.and_eq_true, ih]

theorem wfMems_iff (l : List (String × Json)) :
    wfMems l = true ↔ ∀ p ∈ l, wfVal p.2 = true := by
  induction l with
  | nil => simp [wfMems]
  | cons p ps ih =>
    obtain ⟨k, v⟩ := p
    simp [wfMems, Bool.and_eq_true, ih]

theorem wfMems_buildObj (ms : List (String × Json)) (h : wfMems ms = true) :
    wfMems (buildObj ms) = true := by
  rw [wfMems_iff]
  intro p hp
  exact (wfMems_iff ms).mp h p (buildObj_mem hp)

/-! ### Parser congruence under leading whitespace, and branch-entry steps -/

theorem parseVal_ws_congr (f : Nat) (cs1 cs2 : List Char)
    (h : skipWsL cs1 = skipWsL cs2) : parseVal f cs1 = parseVal f cs2 := by
  cases f with
  | zero => rfl
  | succ g => rw [parseVal_skipWs g cs1, h, ← parseVal_skipWs g cs2]

theorem parseItems_ws_congr (f : Nat) (cs1 cs2 : List Char)
    (h : skipWsL cs1 = skipWsL cs2) : parseItems f cs1 = parseItems f cs2 := by
  cases f with
  | zero => rfl
  | succ g =>
    simp only [parseItems]
    rw [parseVal_ws_congr g cs1 cs2 h]

theorem parseMems_ws_congr (f : Nat) (cs1 cs2 : List Char)
    (h : skipWsL cs1 = skipWsL cs2) : parseMems f cs1 = parseMems f cs2 := by
  cases f with
  | zero => rfl
  | succ g =>
    simp only [parseMems]
    rw [h]

theorem prettyL_length_pos (j : Json) (ind : Nat) : 0 < (prettyL j ind).length := by
  obtain ⟨c, t, hct, _⟩ := prettyL_head j ind
  simp [hct]

/-- Entry into the number branch of the parser: any head that is no keyword,
string, array or object opener and passes the sign-or-digit guard. -/
theorem parseVal_to_num (f : Nat) (c0 : Char) (t : List Char)
    (hws : isJsonWs c0 = false) (hno : c0 ≠ 'n') (hto : c0 ≠ 't') (hfo : c0 ≠ 'f')
    (hqo : c0 ≠ '"') (hbo : c0 ≠ '[') (hco : c0 ≠ '\x7b')
    (hg : (c0 = '-' || isDigitC c0) = true) :
    parseVal (f + 1)  (c0 :: t) =
      (match parseNumL (c0 :: t) with
      | some (n, r2) => some (Json.num n, r2)
      | none => none) := by
  simp only [parseVal]
  rw [skipWsL_cons_not_ws t hws]
  simp [hno, hto, hfo, hqo, hbo, hco, hg]

/-- Entry into the array branch: once the element part does not start with
`]`, the parser defers to `parseItems`. -/
theorem parseVal_arr_step (f : Nat) (l : List Char) (c : Char) (t : List Char)
    (hsk : skipWsL l = c :: t) (hc : c ≠ ']') :
    parseVal (f + 1) ('[' :: l) =
      (match parseItems f (c :: t) with
      | some (xs, r2) => some (Json.arr xs, r2)
      | none => none) := by
  have hstep : parseVal (f + 1) ('[' :: l) =
      (match skipWsL l with
      | ']' :: r2 => some (Json.arr [], r2)
      | cs2 =>
        match parseItems f cs2 with
        | some (xs, r2) => some (Json.arr xs, r2)
        | none => none) := rfl
  rw [hstep, hsk]
  simp [hc]

/-- Entry into the object branch: once the member part does not start with
the closing brace, the parser defers to `parseMems`. -/
theorem parseVal_obj_step (f : Nat) (l : List Char) (c : Char) (t : List Char)
    (hsk : skipWsL l = c :: t) (hc : c ≠ '\x7d') :
    parseVal (f + 1) ('\x7b' :: l) =
      (match parseMems f (c :: t) with
      | some (ms, r2) => some (Json.obj (buildObj ms), r2)
      | none => none) := by
  have hstep : parseVal (f + 1) ('\x7b' :: l) =
      (match skipWsL l with
      | '\x7d' :: r2 => some (Json.obj [], r2)
      | cs2 =>
        match parseMems f cs2 with
        | some (ms, r2) => some (Json.obj (buildObj ms), r2)
        | none => none) := rfl
  rw [hstep, hsk]
  simp [hc]

theorem skipWsL_newline (l : List Char) : skipWsL ('\n' :: l) = skipWsL l := by
  rw [skipWsL, if_pos (by decide)]

theorem skipWsL_pretty (j : Json) (ind : Nat) (u : List Char) :
    skipWsL (prettyL j ind ++ u) = prettyL j ind ++ u := by
  obtain ⟨c, t, hct, hws, _, _, _⟩ := prettyL_head j ind
  rw [hct, List.cons_append, skipWsL_cons_not_ws _ hws]

theorem skipWsL_items (x : Json) (xs : List Json) (ind : Nat) (tail : List Char) :
    ∃ u, skipWsL (prettyItems (x :: xs) ind ++ tail) = prettyL x ind ++ u := by
  cases xs with
  | nil =>
    refine ⟨tail, ?_⟩
    have h : prettyItems [x] ind ++ tail = indentL ind ++ (prettyL x ind ++ tail) := by
      simp [prettyItems, List.append_assoc]
    rw [h, skipWsL_append_ws _ (indentL_all_ws ind), skipWsL_pretty]
  | cons y ys =>
    refine ⟨',' :: '\n' :: (prettyItems (y :: ys) ind ++ tail), ?_⟩
    have h : prettyItems (x :: y :: ys) ind ++ tail
        = indentL ind ++ (prettyL x ind ++
            (',' :: '\n' :: (prettyItems (y :: ys) ind ++ tail))) := by
      simp [prettyItems, List.append_assoc]
    rw [h, skipWsL_append_ws _ (indentL_all_ws ind), skipWsL_pretty]

theorem skipWsL_mems (k : String) (v : Json) (ms : List (String × Json)) (ind : Nat)
    (tail : List Char) :
    ∃ u, skipWsL (prettyMembers ((k, v) :: ms) ind ++ tail) = quoteL k ++ u := by
  cases ms with
  | nil =>
    refine ⟨':' :: ' ' :: (prettyL v ind ++ tail), ?_⟩
    have h : prettyMembers [(k, v)] ind ++ tail
        = indentL ind ++ (quoteL k ++ (':' :: ' ' :: (prettyL v ind ++ tail))) := by
      simp [prettyMembers, List.append_assoc]
    rw [h, skipWsL_append_ws _ (indentL_all_ws ind), quoteL, List.cons_append,
      skipWsL_cons_not_ws _ (by decide)]
  | cons m2 ms2 =>
    refine ⟨':' :: ' ' :: (prettyL v ind ++
      (',' :: '\n' :: (prettyMembers (m2 :: ms2) ind ++ tail))), ?_⟩
    have h : prettyMembers ((k, v) :: m2 :: ms2) ind ++ tail
        = indentL ind ++ (quoteL k ++ (':' :: ' ' :: (prettyL v ind ++
            (',' :: '\n' :: (prettyMembers (m2 :: ms2) ind ++ tail))))) := by
      simp [prettyMembers, List.append_assoc]
    rw [h, skipWsL_append_ws _ (indentL_all_ws ind), quoteL, List.cons_append,
      skipWsL_cons_not_ws _ (by decide)]

/-- One-step unfolding of `parseItems` at successor fuel (definitional). -/
theorem parseItems_step (f : Nat) (cs : List Char) :
    parseItems (f + 1) cs =
      (match parseVal f cs with
      | none => none
      | some (v, r) =>
        match skipWsL r with
        | ',' :: r2 =>
          (match parseItems f r2 with
          | some (vs, r3) => some (v :: vs, r3)
          | none => none)
        | ']' :: r2 => some ([v], r2)
        | _ => none) := rfl

/-- One-step unfolding of `parseMems` at successor fuel (definitional). -/
theorem parseMems_step (f : Nat) (cs : List Char) :
    parseMems (f + 1) cs =
      (match skipWsL cs with
      | '"' :: r =>
        (match parseStrBody [] r with
        | none => none
        | some (key, r1) =>
          match skipWsL r1 with
          | ':' :: r2 =>
            (match parseVal f r2 with
            | none => none
            | some (v, r3) =>
              match skipWsL r3 with
              | ',' :: r4 =>
                (match parseMems f r4 with
                | some (ms, r5) => some ((key, v) :: ms, r5)
                | none => none)
              | '\x7d' :: r4 => some ([(key, v)], r4)
              | _ => none)
          | _ => none)
      | _ => none) := rfl

/-! ### Everything the parser builds is well-formed -/

mutual

theorem parseVal_wf : ∀ (fuel : Nat) (cs : List Char) (j : Json) (r : List Char),
    parseVal fuel cs = some (j, r) → wfVal j = true
  | 0, _, _, _, h => by simp [parseVal] at h
  | fuel + 1, cs, j, r, h => by
    simp only [parseVal] at h
    repeat' split at h
    all_goals first
    | contradiction
    | (simp only [Option.some.injEq, Prod.mk.injEq] at h
       obtain ⟨rfl, rfl⟩ := h
       first
       | rfl
       | exact parseItems_wf fuel _ _ _ (by assumption)
       | (show (keysDistinct (buildObj _) && wfMems (buildObj _)) = true
          rw [Bool.and_eq_true]
          exact ⟨keysDistinct_buildObj _,
            wfMems_buildObj _ (parseMems_wf fuel _ _ _ (by assumption))⟩))

theorem parseItems_wf : ∀ (fuel : Nat) (cs : List Char) (xs : List Json) (r : List Char),
    parseItems fuel cs = some (xs, r) → wfItems xs = true
  | 0, _, _, _, h => by simp [parseItems] at h
  | fuel + 1, cs, xs, r, h => by
    simp only [parseItems] at h
    repeat' split at h
    all_goals first
    | contradiction
    | (simp only [Option.some.injEq, Prod.mk.injEq] at h
       obtain ⟨rfl, rfl⟩ := h
       first
       | (show (wfVal _ && wfItems _) = true
          rw [Bool.and_eq_true]
          exact ⟨parseVal_wf fuel _ _ _ (by assumption),
            parseItems_wf fuel _ _ _ (by assumption)⟩)
       | (show (wfVal _ && wfItems []) = true
          rw [Bool.and_eq_true]
          exact ⟨parseVal_wf fuel _ _ _ (by assumption), rfl⟩))

theorem parseMems_wf : ∀ (fuel : Nat) (cs : List Char) (ms : List (String × Json))
    (r : List Char), parseMems fuel cs = some (ms, r) → wfMems ms = true
  | 0, _, _, _, h => by simp [parseMems] at h
  | fuel + 1, cs, ms, r, h => by
    simp only [parseMems] at h
    repeat' split at h
    all_goals first
    | contradiction
    | (simp only [Option.some.injEq, Prod.mk.injEq] at h
       obtain ⟨rfl, rfl⟩ := h
       first
       | (show (wfVal _ && wfMems _) = true
          rw [Bool.and_eq_true]
          exact ⟨parseVal_wf fuel _ _ _ (by assumption),
            parseMems_wf fuel _ _ _ (by assumption)⟩)
       | (show (wfVal _ && wfMems []) = true
          rw [Bool.and_eq_true]
          exact ⟨parseVal_wf fuel _ _ _ (by assumption), rfl⟩))

end

theorem skipWsL_space (l : List Char) : skipWsL (' ' :: l) = skipWsL l := by
  rw [skipWsL, if_pos (by decide)]

/-! ### The codec round-trip: parsing a pretty-printed value recovers it -/

mutual

theorem rt_val : ∀ (j : Json) (fuel ind : Nat) (rest : List Char),
    wfVal j = true → (prettyL j ind).length < fuel → numDelim rest = true →
    parseVal fuel (prettyL j ind ++ rest) = some (j, rest)
  | .null, fuel, _, rest, _, hf, _ => by
    cases fuel with
    | zero => exact absurd hf (Nat.not_lt_zero _)
    | succ f => rfl
  | .bool true, fuel, _, rest, _, hf, _ => by
    cases fuel with
    | zero => exact absurd hf (Nat.not_lt_zero _)
    | succ f => rfl
  | .bool false, fuel, _, rest, _, hf, _ => by
    cases fuel with
    | zero => exact absurd hf (Nat.not_lt_zero _)
    | succ f => rfl
  | .num i, fuel, ind, rest, _, hf, hr => by
    cases fuel with
    | zero => exact absurd hf (Nat.not_lt_zero _)
    | succ f =>
      obtain ⟨c, t, hct, hc⟩ := intChars_head i
      have harg : prettyL (.num i) ind ++ rest = c :: (t ++ rest) := by
        show intChars i ++ rest = c :: (t ++ rest)
        rw [hct, List.cons_append]
      have hback : c :: (t ++ rest) = intChars i ++ rest := by
        rw [hct, List.cons_append]
      rw [harg]
      rcases hc with rfl | hd
      · rw [parseVal_to_num f '-' (t ++ rest) (by decide) (by decide) (by decide)
          (by decide) (by decide) (by decide) (by decide) (by decide), hback,
          parseNumL_intChars i rest hr]
      · obtain ⟨hn, ht2, hf2, hq, hbk, hbc, _, _, _, _⟩ := digit_ne hd
        rw [parseVal_to_num f c (t ++ rest) (digit_not_jsonWs hd) hn ht2 hf2 hq hbk hbc
          (by simp [hd]), hback, parseNumL_intChars i rest hr]
  | .str s, fuel, ind, rest, _, hf, _ => by
    cases fuel with
    | zero => exact absurd hf (Nat.not_lt_zero _)
    | succ f =>
      have harg : prettyL (.str s) ind ++ rest
          = '"' :: (s.data.flatMap escChar ++ ('"' :: rest)) := by
        simp [prettyL, quoteL]
      rw [harg]
      show (match parseStrBody [] (s.data.flatMap escChar ++ ('"' :: rest)) with
        | some (s2, r2) => some (Json.str s2, r2)
        | none => none) = some (Json.str s, rest)
      rw [parseStrBody_quoteL]
  | .arr [], fuel, ind, rest, _, hf, _ => by
    cases fuel with
    | zero => exact absurd hf (Nat.not_lt_zero _)
    | succ f => rfl
  | .arr (x :: xs), fuel, ind, rest, hw, hf, _ => by
    cases fuel with
    | zero => exact absurd hf (Nat.not_lt_zero _)
    | succ f =>
      have hw2 : wfItems (x :: xs) = true := hw
      have harg : prettyL (.arr (x :: xs)) ind ++ rest
          = '[' :: ('\n' :: (prettyItems (x :: xs) (ind + 2)
              ++ '\n' :: (indentL ind ++ (']' :: rest)))) := by
        simp [prettyL, List.append_assoc]
      rw [harg]
      obtain ⟨u, hu⟩ := skipWsL_items x xs (ind + 2)
        ('\n' :: (indentL ind ++ (']' :: rest)))
      obtain ⟨c, t, hct, hcw, _, hcrb, _⟩ := prettyL_head x (ind + 2)
      have hsk : skipWsL ('\n' :: (prettyItems (x :: xs) (ind + 2)
          ++ '\n' :: (indentL ind ++ (']' :: rest)))) = c :: (t ++ u) := by
        rw [skipWsL_newline, hu, hct, List.cons_append]
      rw [parseVal_arr_step f _ c (t ++ u) hsk hcrb]
      have hcong : parseItems f (c :: (t ++ u)) = parseItems f
          (prettyItems (x :: xs) (ind + 2) ++ '\n' :: (indentL ind ++ (']' :: rest))) := by
        apply parseItems_ws_congr
        rw [skipWsL_cons_not_ws _ hcw, hu, hct, List.cons_append]
      have hfi : (prettyItems (x :: xs) (ind + 2)).length + 1 < f := by
        have hlen2 : (prettyL (Json.arr (x :: xs)) ind).length
            = ('[' :: '\n' :: (prettyItems (x :: xs) (ind + 2)
                ++ '\n' :: (indentL ind ++ [']']))).length := rfl
        rw [hlen2] at hf
        simp only [List.length_cons, List.length_append, indentL,
          List.length_replicate] at hf
        omega
      rw [hcong, rt_items x xs f (ind + 2) ind rest hw2 hfi]
  | .obj [], fuel, ind, rest, _, hf, _ => by
    cases fuel with
    | zero => exact absurd hf (Nat.not_lt_zero _)
    | succ f => rfl
  | .obj ((k, v) :: ms), fuel, ind, rest, hw, hf, _ => by
    cases fuel with
    | zero => exact absurd hf (Nat.not_lt_zero _)
    | succ f =>
      have hw2 : (keysDistinct ((k, v) :: ms) && wfMems ((k, v) :: ms)) = true := hw
      simp only [Bool.and_eq_true] at hw2
      obtain ⟨hkd, hwm⟩ := hw2
      have harg : prettyL (.obj ((k, v) :: ms)) ind ++ rest
          = '\x7b' :: ('\n' :: (prettyMembers ((k, v) :: ms) (ind + 2)
              ++ '\n' :: (indentL ind ++ ('\x7d' :: rest)))) := by
        simp [prettyL, List.append_assoc]
      rw [harg]
      obtain ⟨u, hu⟩ := skipWsL_mems k v ms (ind + 2)
        ('\n' :: (indentL ind ++ ('\x7d' :: rest)))
      have hsk : skipWsL ('\n' :: (prettyMembers ((k, v) :: ms) (ind + 2)
          ++ '\n' :: (indentL ind ++ ('\x7d' :: rest))))
          = '"' :: ((k.data.flatMap escChar ++ ['"']) ++ u) := by
        rw [skipWsL_newline, hu, quoteL, List.cons_append]
      rw [parseVal_obj_step f _ '"' ((k.data.flatMap escChar ++ ['"']) ++ u) hsk (by decide)]
      have hcong : parseMems f ('"' :: ((k.data.flatMap escChar ++ ['"']) ++ u))
          = parseMems f (prettyMembers ((k, v) :: ms) (ind + 2)
              ++ '\n' :: (indentL ind ++ ('\x7d' :: rest))) := by
        apply parseMems_ws_congr
        rw [skipWsL_cons_not_ws _ (by decide), hu, quoteL, List.cons_append]
      have hfm : (prettyMembers ((k, v) :: ms) (ind + 2)).length + 1 < f := by
        have hlen2 : (prettyL (Json.obj ((k, v) :: ms)) ind).length
            = ('\x7b' :: '\n' :: (prettyMembers ((k, v) :: ms) (ind + 2)
                ++ '\n' :: (indentL ind ++ ['\x7d']))).length := rfl
        rw [hlen2] at hf
        simp only [List.length_cons, List.length_append, indentL,
          List.length_replicate] at hf
        omega
      rw [hcong, rt_mems (k, v) ms f (ind + 2) ind rest hwm hfm]
      show some (Json.obj (buildObj ((k, v) :: ms)), rest) = some (Json.obj ((k, v) :: ms), rest)
      rw [buildObj_distinct _ hkd]

termination_by j _ _ _ _ _ _ => sizeOf j

theorem rt_items : ∀ (x : Json) (xs : List Json) (fuel ind outInd : Nat) (rest : List Char),
    wfItems (x :: xs) = true →
    (prettyItems (x :: xs) ind).length + 1 < fuel →
    parseItems fuel (prettyItems (x :: xs) ind ++ '\n' :: (indentL outInd ++ (']' :: rest)))
      = some (x :: xs, rest)
  | x, [], fuel, ind, outInd, rest, hw, hf => by
    cases fuel with
    | zero => exact absurd hf (Nat.not_lt_zero _)
    | succ f =>
      have hwx : wfVal x = true := by
        have h2 : (wfVal x && wfItems []) = true := hw
        simp only [Bool.and_eq_true] at h2
        exact h2.1
      have hlen : (prettyItems [x] ind).length = ind + (prettyL x ind).length := by
        simp only [prettyItems, List.length_append, indentL, List.length_replicate]
      have harg : prettyItems [x] ind ++ '\n' :: (indentL outInd ++ (']' :: rest))
          = indentL ind ++ (prettyL x ind
              ++ ('\n' :: (indentL outInd ++ (']' :: rest)))) := by
        simp [prettyItems, List.append_assoc]
      rw [harg, parseItems_step]
      obtain ⟨f2, rfl⟩ : ∃ f2, f = f2 + 1 := ⟨f - 1, by omega⟩
      have hv : parseVal (f2 + 1) (indentL ind ++ (prettyL x ind
          ++ ('\n' :: (indentL outInd ++ (']' :: rest)))))
          = some (x, '\n' :: (indentL outInd ++ (']' :: rest))) := by
        rw [parseVal_drop_ws f2 _ _ (indentL_all_ws ind)]
        exact rt_val x (f2 + 1) ind _ hwx (by omega) rfl
      rw [hv]
      have hsk : skipWsL ('\n' :: (indentL outInd ++ (']' :: rest))) = ']' :: rest := by
        rw [skipWsL_newline_indent, skipWsL_cons_not_ws _ (by decide)]
      show (match skipWsL ('\n' :: (indentL outInd ++ (']' :: rest))) with
        | ',' :: r2 =>
          (match parseItems (f2 + 1) r2 with
          | some (vs, r3) => some (x :: vs, r3)
          | none => none)
        | ']' :: r2 => some ([x], r2)
        | _ => none) = some ([x], rest)
      rw [hsk]
      rfl
  | x, y :: ys, fuel, ind, outInd, rest, hw, hf => by
    cases fuel with
    | zero => exact absurd hf (Nat.not_lt_zero _)
    | succ f =>
      have h2 : (wfVal x && wfItems (y :: ys)) = true := hw
      simp only [Bool.and_eq_true] at h2
      obtain ⟨hwx, hwt⟩ := h2
      have hlen : (prettyItems (x :: y :: ys) ind).length
          = ind + ((prettyL x ind).length + (2 + (prettyItems (y :: ys) ind).length)) := by
        simp only [prettyItems, List.length_append, List.length_cons, indentL,
          List.length_replicate]
        omega
      have harg : prettyItems (x :: y :: ys) ind ++ '\n' :: (indentL outInd ++ (']' :: rest))
          = indentL ind ++ (prettyL x ind ++ (',' :: '\n' :: (prettyItems (y :: ys) ind
              ++ '\n' :: (indentL outInd ++ (']' :: rest))))) := by
        simp [prettyItems, List.append_assoc]
      rw [harg, parseItems_step]
      obtain ⟨f2, rfl⟩ : ∃ f2, f = f2 + 1 := ⟨f - 1, by omega⟩
      have hv : parseVal (f2 + 1) (indentL ind ++ (prettyL x ind
          ++ (',' :: '\n' :: (prettyItems (y :: ys) ind
            ++ '\n' :: (indentL outInd ++ (']' :: rest))))))
          = some (x, ',' :: '\n' :: (prettyItems (y :: ys) ind
              ++ '\n' :: (indentL outInd ++ (']' :: rest)))) := by
        rw [parseVal_drop_ws f2 _ _ (indentL_all_ws ind)]
        exact rt_val x (f2 + 1) ind _ hwx (by omega) rfl
      rw [hv]
      have hrec : parseItems (f2 + 1) ('\n' :: (prettyItems (y :: ys) ind
          ++ '\n' :: (indentL outInd ++ (']' :: rest)))) = some (y :: ys, rest) := by
        rw [parseItems_ws_congr (f2 + 1) _ (prettyItems (y :: ys) ind
          ++ '\n' :: (indentL outInd ++ (']' :: rest))) (skipWsL_newline _)]
        exact rt_items y ys (f2 + 1) ind outInd rest hwt (by omega)
      show (match parseItems (f2 + 1) ('\n' :: (prettyItems (y :: ys) ind
          ++ '\n' :: (indentL outInd ++ (']' :: rest)))) with
        | some (vs, r3) => some (x :: vs, r3)
        | none => none) = some (x :: y :: ys, rest)
      rw [hrec]

termination_by x xs _ _ _ _ _ _ => sizeOf x + sizeOf xs

theorem rt_mems : ∀ (m : String × Json) (ms : List (String × Json))
    (fuel ind outInd : Nat) (rest : List Char),
    wfMems (m :: ms) = true →
    (prettyMembers (m :: ms) ind).length + 1 < fuel →
    parseMems fuel (prettyMembers (m :: ms) ind
      ++ '\n' :: (indentL outInd ++ ('\x7d' :: rest))) = some (m :: ms, rest)
  | (k, v), [], fuel, ind, outInd, rest, hw, hf => by
    cases fuel with
    | zero => exact absurd hf (Nat.not_lt_zero _)
    | succ f =>
      have hwv : wfVal v = true := by
        have h2 : (wfVal v && wfMems []) = true := hw
        simp only [Bool.and_eq_true] at h2
        exact h2.1
      have hlen : (prettyMembers [(k, v)] ind).length
          = ind + ((quoteL k).length + (2 + (prettyL v ind).length)) := by
        simp only [prettyMembers, List.length_append, List.length_cons, indentL,
          List.length_replicate]
        omega
      have harg : prettyMembers [(k, v)] ind ++ '\n' :: (indentL outInd ++ ('\x7d' :: rest))
          = indentL ind ++ (quoteL k ++ (':' :: ' ' :: (prettyL v ind
              ++ ('\n' :: (indentL outInd ++ ('\x7d' :: rest)))))) := by
        simp [prettyMembers, List.append_assoc]
      rw [harg, parseMems_step]
      have hsk : skipWsL (indentL ind ++ (quoteL k ++ (':' :: ' ' :: (prettyL v ind
          ++ ('\n' :: (indentL outInd ++ ('\x7d' :: rest)))))))
          = '"' :: (k.data.flatMap escChar ++ ('"' :: (':' :: ' ' :: (prettyL v ind
              ++ ('\n' :: (indentL outInd ++ ('\x7d' :: rest))))))) := by
        rw [skipWsL_append_ws _ (indentL_all_ws ind), quoteL, List.cons_append,
          skipWsL_cons_not_ws _ (by decide)]
        simp [List.append_assoc]
      rw [hsk]
      show (match parseStrBody [] (k.data.flatMap escChar ++ ('"' :: (':' :: ' ' ::
          (prettyL v ind ++ ('\n' :: (indentL outInd ++ ('\x7d' :: rest))))))) with
        | none => none
        | some (key, r1) =>
          match skipWsL r1 with
          | ':' :: r2 =>
            (match parseVal f r2 with
            | none => none
            | some (v2, r3) =>
              match skipWsL r3 with
              | ',' :: r4 =>
                (match parseMems f r4 with
                | some (ms2, r5) => some ((key, v2) :: ms2, r5)
                | none => none)
              | '\x7d' :: r4 => some ([(key, v2)], r4)
              | _ => none)
          | _ => none)
        = some ([(k, v)], rest)
      rw [parseStrBody_quoteL]
      obtain ⟨f2, rfl⟩ : ∃ f2, f = f2 + 1 := ⟨f - 1, by omega⟩
      have hv : parseVal (f2 + 1) (' ' :: (prettyL v ind
          ++ ('\n' :: (indentL outInd ++ ('\x7d' :: rest)))))
          = some (v, '\n' :: (indentL outInd ++ ('\x7d' :: rest))) := by
        rw [parseVal_ws_congr (f2 + 1) _ _ (skipWsL_space _)]
        exact rt_val v (f2 + 1) ind _ hwv (by omega) rfl
      show (match parseVal (f2 + 1) (' ' :: (prettyL v ind
          ++ ('\n' :: (indentL outInd ++ ('\x7d' :: rest))))) with
        | none => none
        | some (v2, r3) =>
          match skipWsL r3 with
          | ',' :: r4 =>
            (match parseMems (f2 + 1) r4 with
            | some (ms2, r5) => some ((k, v2) :: ms2, r5)
            | none => none)
          | '\x7d' :: r4 => some ([(k, v2)], r4)
          | _ => none)
        = some ([(k, v)], rest)
      rw [hv]
      have hskT : skipWsL ('\n' :: (indentL outInd ++ ('\x7d' :: rest))) = '\x7d' :: rest := by
        rw [skipWsL_newline_indent, skipWsL_cons_not_ws _ (by decide)]
      show (match skipWsL ('\n' :: (indentL outInd ++ ('\x7d' :: rest))) with
        | ',' :: r4 =>
          (match parseMems (f2 + 1) r4 with
          | some (ms2, r5) => some ((k, v) :: ms2, r5)
          | none => none)
        | '\x7d' :: r4 => some ([(k, v)], r4)
        | _ => none) = some ([(k, v)], rest)
      rw [hskT]
      rfl
  | (k, v), m2 :: ms2, fuel, ind, outInd, rest, hw, hf => by
    cases fuel with
    | zero => exact absurd hf (Nat.not_lt_zero _)
    | succ f =>
      have h2 : (wfVal v && wfMems (m2 :: ms2)) = true := hw
      simp only [Bool.and_eq_true] at h2
      obtain ⟨hwv, hwt⟩ := h2
      have hlen : (prettyMembers ((k, v) :: m2 :: ms2) ind).length
          = ind + ((quoteL k).length + (2 + (prettyL v ind).length)
              + (2 + (prettyMembers (m2 :: ms2) ind).length)) := by
        simp only [prettyMembers, List.length_append, List.length_cons, indentL,
          List.length_replicate]
        omega
      have harg : prettyMembers ((k, v) :: m2 :: ms2) ind
            ++ '\n' :: (indentL outInd ++ ('\x7d' :: rest))
          = indentL ind ++ (quoteL k ++ (':' :: ' ' :: (prettyL v ind
              ++ (',' :: '\n' :: (prettyMembers (m2 :: ms2) ind
                ++ '\n' :: (indentL outInd ++ ('\x7d' :: rest))))))) := by
        simp [prettyMembers, List.append_assoc]
      rw [harg, parseMems_step]
      have hsk : skipWsL (indentL ind ++ (quoteL k ++ (':' :: ' ' :: (prettyL v ind
          ++ (',' :: '\n' :: (prettyMembers (m2 :: ms2) ind
            ++ '\n' :: (indentL outInd ++ ('\x7d' :: rest))))))))
          = '"' :: (k.data.flatMap escChar ++ ('"' :: (':' :: ' ' :: (prettyL v ind
              ++ (',' :: '\n' :: (prettyMembers (m2 :: ms2) ind
                ++ '\n' :: (indentL outInd ++ ('\x7d' :: rest)))))))) := by
        rw [skipWsL_append_ws _ (indentL_all_ws ind), quoteL, List.cons_append,
          skipWsL_cons_not_ws _ (by decide)]
        simp [List.append_assoc]
      rw [hsk]
      show (match parseStrBody [] (k.data.flatMap escChar ++ ('"' :: (':' :: ' ' ::
          (prettyL v ind ++ (',' :: '\n' :: (prettyMembers (m2 :: ms2) ind
            ++ '\n' :: (indentL outInd ++ ('\x7d' :: rest)))))))) with
        | none => none
        | some (key, r1) =>
          match skipWsL r1 with
          | ':' :: r2 =>
            (match parseVal f r2 with
            | none => none
            | some (v2, r3) =>
              match skipWsL r3 with
              | ',' :: r4 =>
                (match parseMems f r4 with
                | some (ms3, r5) => some ((key, v2) :: ms3, r5)
                | none => none)
              | '\x7d' :: r4 => some ([(key, v2)], r4)
              | _ => none)
          | _ => none)
        = some ((k, v) :: m2 :: ms2, rest)
      rw [parseStrBody_quoteL]
      obtain ⟨f2, rfl⟩ : ∃ f2, f = f2 + 1 := ⟨f - 1, by omega⟩
      have hv : parseVal (f2 + 1) (' ' :: (prettyL v ind
          ++ (',' :: '\n' :: (prettyMembers (m2 :: ms2) ind
            ++ '\n' :: (indentL outInd ++ ('\x7d' :: rest))))))
          = some (v, ',' :: '\n' :: (prettyMembers (m2 :: ms2) ind
              ++ '\n' :: (indentL outInd ++ ('\x7d' :: rest)))) := by
        rw [parseVal_ws_congr (f2 + 1) _ _ (skipWsL_space _)]
        exact rt_val v (f2 + 1) ind _ hwv (by omega) rfl
      show (match parseVal (f2 + 1) (' ' :: (prettyL v ind
          ++ (',' :: '\n' :: (prettyMembers (m2 :: ms2) ind
            ++ '\n' :: (indentL outInd ++ ('\x7d' :: rest)))))) with
        | none => none
        | some (v2, r3) =>
          match skipWsL r3 with
          | ',' :: r4 =>
            (match parseMems (f2 + 1) r4 with
            | some (ms3, r5) => some ((k, v2) :: ms3, r5)
            | none => none)
          | '\x7d' :: r4 => some ([(k, v2)], r4)
          | _ => none)
        = some ((k, v) :: m2 :: ms2, rest)
      rw [hv]
      have hrec : parseMems (f2 + 1) ('\n' :: (prettyMembers (m2 :: ms2) ind
          ++ '\n' :: (indentL outInd ++ ('\x7d' :: rest)))) = some (m2 :: ms2, rest) := by
        rw [parseMems_ws_congr (f2 + 1) _ (prettyMembers (m2 :: ms2) ind
          ++ '\n' :: (indentL outInd ++ ('\x7d' :: rest))) (skipWsL_newline _)]
        exact rt_mems m2 ms2 (f2 + 1) ind outInd rest hwt (by omega)
      show (match parseMems (f2 + 1) ('\n' :: (prettyMembers (m2 :: ms2) ind
          ++ '\n' :: (indentL outInd ++ ('\x7d' :: rest)))) with
        | some (ms3, r5) => some ((k, v) :: ms3, r5)
        | none => none) = some ((k, v) :: m2 :: ms2, rest)
      rw [hrec]

termination_by m ms _ _ _ _ _ _ => sizeOf m + sizeOf ms

end

/-! ### Assembling the round-trip at the document level -/

theorem parseJsonL_prettyL (j : Json) (h : wfVal j = true) :
    parseJsonL (prettyL j 0) = some j := by
  rw [parseJsonL]
  have hrt := rt_val j ((prettyL j 0).length + 1) 0 [] h (by omega) rfl
  rw [List.append_nil] at hrt
  rw [hrt]
  rfl

theorem parseJsonL_wf (l : List Char) (j : Json) (h : parseJsonL l = some j) :
    wfVal j = true := by
  rw [parseJsonL] at h
  split at h
  · rename_i j2 r heq
    split at h
    · cases h
      exact parseVal_wf _ _ _ _ heq
    · contradiction
  · contradiction

theorem jsTrimL_newline_pretty (j : Json) :
    jsTrimL ('\n' :: prettyL j 0) = prettyL j 0 := by
  obtain ⟨c, t, hct, _, hcw, _, _⟩ := prettyL_head j 0
  obtain ⟨t2, c2, hct2, hc2w⟩ := prettyL_last j 0
  rw [jsTrimL]
  have h1 : ('\n' :: prettyL j 0).dropWhile isTrimWs = prettyL j 0 := by
    rw [List.dropWhile_cons]
    simp only [show isTrimWs '\n' = true from rfl, if_true]
    rw [hct, List.dropWhile_cons]
    simp [hcw]
  rw [h1, hct2, List.reverse_append]
  simp only [List.reverse_cons, List.reverse_nil, List.nil_append, List.singleton_append]
  rw [List.dropWhile_cons]
  simp only [hc2w, Bool.false_eq_true, if_false]
  rw [List.reverse_cons, List.reverse_reverse]

/-! ### Decode reduced along its classification branches -/

theorem decode_classified (t : String) (ct : Option String) (j : Json)
    (hlooks : (ctHasJson (ct.map String.data) || startsJsonTok (jsTrimL t.data)) = true)
    (hparse : parseJsonL (jsTrimL t.data) = some j) :
    parseWebhookText t ct = ⟨jsonToDisplay j⟩ := by
  show (⟨parseWebhookTextL t.data (ct.map String.data)⟩ : String) = _
  simp only [parseWebhookTextL, hlooks, hparse, if_true]

theorem decode_parse_failed (t : String) (ct : Option String)
    (hparse : parseJsonL (jsTrimL t.data) = none) :
    parseWebhookText t ct = ⟨htmlOrPlainL t.data (jsTrimL t.data)⟩ := by
  show (⟨parseWebhookTextL t.data (ct.map String.data)⟩ : String) = _
  simp only [parseWebhookTextL, hparse]
  by_cases h : (ctHasJson (ct.map String.data) || startsJsonTok (jsTrimL t.data)) = true
  · simp only [h, if_true]
  · simp only [Bool.not_eq_true] at h
    simp only [h, Bool.false_eq_true, if_false]

theorem decode_not_classified (t : String) (ct : Option String)
    (hlooks : (ctHasJson (ct.map String.data) || startsJsonTok (jsTrimL t.data)) = false) :
    parseWebhookText t ct = ⟨htmlOrPlainL t.data (jsTrimL t.data)⟩ := by
  show (⟨parseWebhookTextL t.data (ct.map String.data)⟩ : String) = _
  simp only [parseWebhookTextL, hlooks, Bool.false_eq_true, if_false]

/-! ### Conversation store lemmas -/

theorem resolveMsg_length (log : List ChatMessage) (wid c : String) :
    (resolveMsg log wid c).length = log.length := by
  simp [resolveMsg]

theorem resolveMsg_fresh (log : List ChatMessage) (wid c : String)
    (hfresh : ∀ m ∈ log, m.id ≠ wid) : resolveMsg log wid c = log := by
  rw [resolveMsg]
  conv_rhs => rw [← List.map_id log]
  exact List.map_congr_left fun m hm => if_neg (hfresh m hm)

theorem resolveMsg_append (l1 l2 : List ChatMessage) (wid c : String) :
    resolveMsg (l1 ++ l2) wid c = resolveMsg l1 wid c ++ resolveMsg l2 wid c := by
  simp [resolveMsg]

theorem resolveMsg_content (log : List ChatMessage) (wid c : String) :
    ∀ m ∈ resolveMsg log wid c, m.id = wid → m.content = c := by
  intro m hm hid
  obtain ⟨m0, hm0, hm0e⟩ := List.mem_map.mp hm
  by_cases h : m0.id = wid
  · rw [← hm0e]
    simp [h]
  · rw [← hm0e] at hid
    simp only [h, if_false] at hid

theorem handleSend_unfold (uid wid : String) (uts pts : Nat) (textArg : Option String)
    (inputBox : String) (hasImage hasAudio : Bool) (url : String)
    (transport : TransportResult) (log : List ChatMessage)
    (hguard : (jsTrimS (textArg.getD inputBox) = "" && !hasImage && !hasAudio) = false) :
    handleSend uid wid uts pts textArg inputBox hasImage hasAudio url transport log
      = (if url = "" then
          resolveMsg (handleSendPre uid wid uts pts (jsTrimS (textArg.getD inputBox))
            hasImage hasAudio log) wid demoText
        else
          match transport with
          | .ok t ct =>
            resolveMsg (handleSendPre uid wid uts pts (jsTrimS (textArg.getD inputBox))
              hasImage hasAudio log) wid (resolvedReply (parseWebhookText t ct))
          | .netError =>
            resolveMsg (handleSendPre uid wid uts pts (jsTrimS (textArg.getD inputBox))
              hasImage hasAudio log) wid demoText) := by
  rw [handleSend]
  simp only [hguard, Bool.false_eq_true, if_false]

theorem resolveMsg_pre (uid wid : String) (uts pts : Nat) (body : String)
    (hasImage hasAudio : Bool) (log : List ChatMessage) (c : String)
    (hfresh : ∀ m ∈ log, m.id ≠ wid) (huid : uid ≠ wid) :
    resolveMsg (handleSendPre uid wid uts pts body hasImage hasAudio log) wid c
      = log ++ [⟨uid, .user, userContent body hasImage hasAudio, uts⟩,
          ⟨wid, .assistant, c, pts⟩] := by
  rw [handleSendPre, resolveMsg_append, resolveMsg_fresh log wid c hfresh]
  congr 1
  simp [resolveMsg, huid]

/-! ### The claims -/

/-- Claim C1: for a JSON object input classified as JSON, decode follows the
fixed priority cascade: a top-level `reply` string field is returned exactly;
else a string `data.reply` under a record `data`; else the chat-completion
shape `choices[0].message.content`; else a newline followed by the two-space
pretty-printed dump of the whole object. -/
theorem decode_json_priority (t : String) (ct : Option String)
    (fields : List (String × Json))
    (hlooks : (ctHasJson (ct.map String.data) || startsJsonTok (jsTrimL t.data)) = true)
    (hparse : parseJsonS (jsTrimS t) = some (Json.obj fields)) :
    (∀ r, replyOf (Json.obj fields) = some r → parseWebhookText t ct = r)
    ∧ (replyOf (Json.obj fields) = none →
        ∀ r, dataReplyOf (Json.obj fields) = some r → parseWebhookText t ct = r)
    ∧ (replyOf (Json.obj fields) = none → dataReplyOf (Json.obj fields) = none →
        ∀ r, choicesContentOf (Json.obj fields) = some r → parseWebhookText t ct = r)
    ∧ (replyOf (Json.obj fields) = none → dataReplyOf (Json.obj fields) = none →
        choicesContentOf (Json.obj fields) = none →
        parseWebhookText t ct = "\n" ++ (⟨prettyL (Json.obj fields) 0⟩ : String)) := by
  have hd := decode_classified t ct (Json.obj fields) hlooks hparse
  refine ⟨?_, ?_, ?_, ?_⟩
  · intro r hr
    rw [hd]
    show (⟨recCascade (Json.obj fields)⟩ : String) = r
    rw [recCascade, hr]
  · intro h1 r hr
    rw [hd]
    show (⟨recCascade (Json.obj fields)⟩ : String) = r
    rw [recCascade, h1, hr]
  · intro h1 h2 r hr
    rw [hd]
    show (⟨recCascade (Json.obj fields)⟩ : String) = r
    rw [recCascade, h1, h2, hr]
  · intro h1 h2 h3
    rw [hd]
    show (⟨recCascade (Json.obj fields)⟩ : String) = _
    rw [recCascade, h1, h2, h3]
    rfl

/-- Witness for C1 at the concrete body with a top-level `reply` field. -/
theorem decode_json_priority_witness :
    parseWebhookText "\x7b\"reply\": \"hi\"\x7d" none = "hi" :=
  (decode_json_priority "\x7b\"reply\": \"hi\"\x7d" none [("reply", Json.str "hi")]
    rfl rfl).1 "hi" rfl

/-- Claim C5: a JSON object input with none of the `reply`, `data.reply` or
`choices[0].message.content` probes matching decodes to a newline followed by
the pretty dump, and JSON-parsing the trimmed decode output reproduces the
object exactly (round-trip). -/
theorem decode_dump_roundtrip (t : String) (ct : Option String)
    (fields : List (String × Json))
    (hlooks : (ctHasJson (ct.map String.data) || startsJsonTok (jsTrimL t.data)) = true)
    (hparse : parseJsonS (jsTrimS t) = some (Json.obj fields))
    (h1 : replyOf (Json.obj fields) = none)
    (h2 : dataReplyOf (Json.obj fields) = none)
    (h3 : choicesContentOf (Json.obj fields) = none) :
    parseWebhookText t ct = "\n" ++ (⟨prettyL (Json.obj fields) 0⟩ : String)
    ∧ parseJsonS (jsTrimS (parseWebhookText t ct)) = some (Json.obj fields) := by
  have hd := decode_classified t ct (Json.obj fields) hlooks hparse
  have hcasc : parseWebhookText t ct = ⟨'\n' :: prettyL (Json.obj fields) 0⟩ := by
    rw [hd]
    show (⟨recCascade (Json.obj fields)⟩ : String) = _
    rw [recCascade, h1, h2, h3]
  constructor
  · rw [hcasc]
    rfl
  · rw [hcasc]
    show parseJsonL (jsTrimL ('\n' :: prettyL (Json.obj fields) 0)) = some (Json.obj fields)
    rw [jsTrimL_newline_pretty]
    exact parseJsonL_prettyL _ (parseJsonL_wf _ _ hparse)

/-- Witness for C5 at a concrete one-field object with no matching probe. -/
theorem decode_dump_roundtrip_witness :
    parseWebhookText "\x7b\"a\": 1\x7d" none = "\n\x7b\n  \"a\": 1\n\x7d"
    ∧ parseJsonS (jsTrimS (parseWebhookText "\x7b\"a\": 1\x7d" none)) =
        some (Json.obj [("a", Json.num 1)]) := by
  have h := decode_dump_roundtrip "\x7b\"a\": 1\x7d" none [("a", Json.num 1)]
    rfl rfl rfl rfl rfl
  refine ⟨?_, h.2⟩
  rw [h.1]
  rfl

/-- Claim C7: the decoder is total — it is a function returning a string for
every input and content type; the empty input yields the literal
"(No response body)" placeholder for every content type, and a JSON parse
failure falls through to the HTML/plain handling instead of failing. -/
theorem decode_total_fallback :
    (∀ ct, parseWebhookText "" ct = "(No response body)")
    ∧ (∀ t ct, parseJsonS (jsTrimS t) = none →
        parseWebhookText t ct = ⟨htmlOrPlainL t.data (jsTrimL t.data)⟩) := by
  constructor
  · intro ct
    rw [decode_parse_failed "" ct rfl]
    rfl
  · intro t ct hp
    exact decode_parse_failed t ct hp

/-- Witness for C7: empty body under a JSON content type, and a malformed
JSON body falling through to the plain-text result. -/
theorem decode_total_fallback_witness :
    parseWebhookText "" (some "application/json") = "(No response body)"
    ∧ parseWebhookText "\x7boops" none = "\x7boops" := by
  refine ⟨decode_total_fallback.1 (some "application/json"), ?_⟩
  rw [decode_total_fallback.2 "\x7boops" none rfl]
  rfl

theorem iframe_inner_text (src : List Char) :
    (if !src.isEmpty then
      (let plain := textContentOf (tokenizeHtml src)
       if !(jsTrimL plain).isEmpty then jsTrimL plain else ([] : List Char))
     else []) = jsTrimL (textContentOf (tokenizeHtml src)) := by
  cases src with
  | nil => rfl
  | cons c rest =>
    show (let plain := textContentOf (tokenizeHtml (c :: rest))
      if !(jsTrimL plain).isEmpty then jsTrimL plain else ([] : List Char)) = _
    by_cases h : (jsTrimL (textContentOf (tokenizeHtml (c :: rest)))).isEmpty
    · simp only [h, Bool.not_true, Bool.false_eq_true, if_false]
      exact (List.isEmpty_iff.mp h).symm
    · simp only [h, Bool.not_false, if_true]

/-- Claim C6: inside the HTML branch (body not decoded as JSON, trimmed body
starting with a lower-than sign, lowercased body containing both iframe and
srcdoc markers), decode returns the trimmed text content of the nested HTML
document held in the first iframe's srcdoc attribute; when no iframe element
with a srcdoc attribute is found, decode returns the empty string with no
further fallback. -/
theorem decode_iframe_srcdoc (t : String) (ct : Option String)
    (hnojson : (ctHasJson (ct.map String.data) || startsJsonTok (jsTrimL t.data)) = false
      ∨ parseJsonS (jsTrimS t) = none)
    (hlt : (jsTrimL t.data).head? = some '<')
    (hifr : containsSub (toLowerL (jsTrimL t.data)) "<iframe".data = true)
    (hsd : containsSub (toLowerL (jsTrimL t.data)) "srcdoc=".data = true) :
    (∀ src, findIframeSrcdoc (tokenizeHtml (jsTrimL t.data)) = some src →
      parseWebhookText t ct = ⟨jsTrimL (textContentOf (tokenizeHtml src))⟩)
    ∧ (findIframeSrcdoc (tokenizeHtml (jsTrimL t.data)) = none →
      parseWebhookText t ct = "") := by
  have hd : parseWebhookText t ct = ⟨htmlOrPlainL t.data (jsTrimL t.data)⟩ := by
    rcases hnojson with h | h
    · exact decode_not_classified t ct h
    · exact decode_parse_failed t ct h
  constructor
  · intro src hsrc
    rw [hd]
    show (⟨htmlOrPlainL t.data (jsTrimL t.data)⟩ : String) = _
    rw [htmlOrPlainL]
    simp only [hlt, reduceIte, hifr, hsd, Bool.and_self, if_true, hsrc, Option.getD_some]
    rw [iframe_inner_text]
  · intro hsrc
    rw [hd]
    show (⟨htmlOrPlainL t.data (jsTrimL t.data)⟩ : String) = ""
    rw [htmlOrPlainL]
    simp only [hlt, reduceIte, hifr, hsd, Bool.and_self, if_true, hsrc, Option.getD_none]
    rfl

/-- Witness for C6: the iframe wrapper from the spec yields "Room booked";
a body entering the branch with no matching iframe yields the empty string. -/
theorem decode_iframe_srcdoc_witness :
    parseWebhookText "<iframe srcdoc=\"<p>Room booked</p>\"></iframe>" none = "Room booked"
    ∧ parseWebhookText "<div data-a=\"x srcdoc= y\"><iframe>no</iframe></div>" none = "" := by
  constructor
  · have h := (decode_iframe_srcdoc "<iframe srcdoc=\"<p>Room booked</p>\"></iframe>" none
      (Or.inl rfl) rfl rfl rfl).1 "<p>Room booked</p>".data rfl
    rw [h]
    rfl
  · exact (decode_iframe_srcdoc "<div data-a=\"x srcdoc= y\"><iframe>no</iframe></div>" none
      (Or.inl rfl) rfl rfl rfl).2 rfl

/-- Claim C2: when the webhook URL is empty or the transport throws, a
non-empty send attempt always produces a log ending with the turn's user
message followed by the placeholder resolved to the fixed demo fallback text;
the result is a plain log (no propagated error), and the resolved content is
not the pending marker. -/
theorem send_failure_resolves_demo (uid wid : String) (uts pts : Nat)
    (textArg : Option String) (inputBox : String) (hasImage hasAudio : Bool)
    (url : String) (transport : TransportResult) (log : List ChatMessage)
    (hguard : (jsTrimS (textArg.getD inputBox) = "" && !hasImage && !hasAudio) = false)
    (hfresh : ∀ m ∈ log, m.id ≠ wid) (huid : uid ≠ wid)
    (hfail : url = "" ∨ transport = TransportResult.netError) :
    handleSend uid wid uts pts textArg inputBox hasImage hasAudio url transport log
      = log ++ [⟨uid, .user,
            userContent (jsTrimS (textArg.getD inputBox)) hasImage hasAudio, uts⟩,
          ⟨wid, .assistant, demoText, pts⟩]
    ∧ demoText ≠ pendingDots := by
  refine ⟨?_, by decide⟩
  rw [handleSend_unfold uid wid uts pts textArg inputBox hasImage hasAudio url
    transport log hguard]
  by_cases hu : url = ""
  · rw [if_pos hu]
    exact resolveMsg_pre uid wid uts pts _ hasImage hasAudio log demoText hfresh huid
  · rw [if_neg hu]
    have ht : transport = TransportResult.netError := by
      rcases hfail with h | h
      · exact absurd h hu
      · exact h
    rw [ht]
    exact resolveMsg_pre uid wid uts pts _ hasImage hasAudio log demoText hfresh huid

/-- Witness for C2: the spec scenario — submitting "Book a room for Tuesday"
with no webhook configured ends the log with that user message and a demo
assistant message. -/
theorem send_failure_resolves_demo_witness :
    handleSend "u1" "w1" 10 11 none "Book a room for Tuesday" false false ""
        TransportResult.netError []
      = [⟨"u1", .user, "Book a room for Tuesday", 10⟩,
          ⟨"w1", .assistant, demoText, 11⟩]
    ∧ demoText ≠ pendingDots := by
  have h := send_failure_resolves_demo "u1" "w1" 10 11 none "Book a room for Tuesday"
    false false "" TransportResult.netError []
    (by decide) (by intro m hm; exact absurd hm (List.not_mem_nil m)) (by decide)
    (Or.inl rfl)
  refine ⟨?_, h.2⟩
  rw [h.1]
  rfl

/-- Claim C3 (counterexample): resolving an already-resolved id a second time
with different content is not a no-op — `resolveMsg` rewrites the matching
message's content unconditionally, so the previously resolved content is
overwritten. -/
theorem resolve_second_time_not_noop :
    resolveMsg (resolveMsg [⟨"w", Role.assistant, pendingDots, 0⟩] "w" "first") "w" "second"
      ≠ resolveMsg [⟨"w", Role.assistant, pendingDots, 0⟩] "w" "first" := by
  decide

/-- Claim C3 (amended): a second resolve of the same id preserves the log
length, no-ops when the id is not present in the log, and otherwise
overwrites every matching message's content with the newly supplied content
(rather than preserving the first resolution). -/
theorem resolve_second_time_overwrites (log : List ChatMessage) (wid c1 c2 : String) :
    (resolveMsg (resolveMsg log wid c1) wid c2).length = log.length
    ∧ ((∀ m ∈ log, m.id ≠ wid) → resolveMsg log wid c2 = log)
    ∧ (∀ m ∈ resolveMsg (resolveMsg log wid c1) wid c2, m.id = wid → m.content = c2) := by
  refine ⟨?_, ?_, ?_⟩
  · rw [resolveMsg_length, resolveMsg_length]
  · intro hfresh
    exact resolveMsg_fresh log wid c2 hfresh
  · exact resolveMsg_content (resolveMsg log wid c1) wid c2

/-- Witness for the amended C3 on a concrete two-message log. -/
theorem resolve_second_time_overwrites_witness :
    (resolveMsg (resolveMsg [⟨"a", Role.user, "x", 0⟩, ⟨"w", Role.assistant, "y", 1⟩]
        "w" "B") "w" "C").length = 2
    ∧ resolveMsg [⟨"a", Role.user, "x", 0⟩, ⟨"w", Role.assistant, "y", 1⟩] "q" "C"
        = [⟨"a", Role.user, "x", 0⟩, ⟨"w", Role.assistant, "y", 1⟩] := by
  have h1 := resolve_second_time_overwrites
    [⟨"a", Role.user, "x", 0⟩, ⟨"w", Role.assistant, "y", 1⟩] "w" "B" "C"
  have h2 := resolve_second_time_overwrites
    [⟨"a", Role.user, "x", 0⟩, ⟨"w", Role.assistant, "y", 1⟩] "q" "B" "C"
  exact ⟨h1.1, h2.2.1 (by decide)⟩

/-- Claim C4: the synchronous phase of a turn appends the user message and
then the placeholder, in that order, before any transport result is applied;
and because resolution targets the placeholder id captured at submit time,
two overlapping turns whose replies arrive out of order (the second turn's
reply first) still each land in their own placeholder. -/
theorem send_ordering_and_targeting (log : List ChatMessage)
    (u1 w1 u2 w2 : String) (uts1 pts1 uts2 pts2 : Nat)
    (b1 b2 : String) (i1 a1 i2 a2 : Bool) (c1 c2 : String)
    (hw1 : ∀ m ∈ log, m.id ≠ w1) (hw2 : ∀ m ∈ log, m.id ≠ w2)
    (hu1w1 : u1 ≠ w1) (hu1w2 : u1 ≠ w2) (hu2w1 : u2 ≠ w1) (hu2w2 : u2 ≠ w2)
    (hw1w2 : w1 ≠ w2) :
    handleSendPre u1 w1 uts1 pts1 b1 i1 a1 log
      = log ++ [⟨u1, .user, userContent b1 i1 a1, uts1⟩,
          ⟨w1, .assistant, pendingDots, pts1⟩]
    ∧ resolveMsg (resolveMsg
        (handleSendPre u2 w2 uts2 pts2 b2 i2 a2
          (handleSendPre u1 w1 uts1 pts1 b1 i1 a1 log)) w2 c2) w1 c1
      = log ++ [⟨u1, .user, userContent b1 i1 a1, uts1⟩,
          ⟨w1, .assistant, c1, pts1⟩,
          ⟨u2, .user, userContent b2 i2 a2, uts2⟩,
          ⟨w2, .assistant, c2, pts2⟩] := by
  refine ⟨rfl, ?_⟩
  have hpre : handleSendPre u2 w2 uts2 pts2 b2 i2 a2
      (handleSendPre u1 w1 uts1 pts1 b1 i1 a1 log)
      = log ++ [⟨u1, .user, userContent b1 i1 a1, uts1⟩,
          ⟨w1, .assistant, pendingDots, pts1⟩,
          ⟨u2, .user, userContent b2 i2 a2, uts2⟩,
          ⟨w2, .assistant, pendingDots, pts2⟩] := by
    rw [handleSendPre, handleSendPre, List.append_assoc]
    rfl
  rw [hpre, resolveMsg_append, resolveMsg_fresh log w2 c2 hw2,
    resolveMsg_append, resolveMsg_fresh log w1 c1 hw1]
  congr 1
  simp [resolveMsg, hu1w2, hu2w2, hw1w2, hu1w1, hu2w1, Ne.symm hw1w2]

/-- Witness for C4: two concrete overlapping turns resolved out of order each
land in their own placeholder. -/
theorem send_ordering_and_targeting_witness :
    handleSendPre "u1" "w1" 1 2 "first" false false []
      = [⟨"u1", .user, "first", 1⟩, ⟨"w1", .assistant, pendingDots, 2⟩]
    ∧ resolveMsg (resolveMsg
        (handleSendPre "u2" "w2" 3 4 "second" false false
          (handleSendPre "u1" "w1" 1 2 "first" false false [])) "w2" "replyB") "w1" "replyA"
      = [⟨"u1", .user, "first", 1⟩, ⟨"w1", .assistant, "replyA", 2⟩,
          ⟨"u2", .user, "second", 3⟩, ⟨"w2", .assistant, "replyB", 4⟩] := by
  have h := send_ordering_and_targeting [] "u1" "w1" "u2" "w2" 1 2 3 4
    "first" "second" false false false false "replyA" "replyB"
    (by intro m hm; exact absurd hm (List.not_mem_nil m))
    (by intro m hm; exact absurd hm (List.not_mem_nil m))
    (by decide) (by decide) (by decide) (by decide) (by decide)
  refine ⟨?_, ?_⟩
  · rw [h.1]
    rfl
  · rw [h.2]
    rfl

/-- Claim C10: on a successful send whose decoded reply is the empty string,
the placeholder is resolved with the literal "(empty)", and the success-path
resolution content is never the empty string for any decoded reply. -/
theorem resolved_reply_never_empty (uid wid : String) (uts pts : Nat)
    (textArg : Option String) (inputBox : String) (hasImage hasAudio : Bool)
    (url : String) (t : String) (ct : Option String) (log : List ChatMessage)
    (hguard : (jsTrimS (textArg.getD inputBox) = "" && !hasImage && !hasAudio) = false)
    (hurl : url ≠ "") (hfresh : ∀ m ∈ log, m.id ≠ wid) (huid : uid ≠ wid)
    (hempty : parseWebhookText t ct = "") :
    handleSend uid wid uts pts textArg inputBox hasImage hasAudio url
        (TransportResult.ok t ct) log
      = log ++ [⟨uid, .user,
            userContent (jsTrimS (textArg.getD inputBox)) hasImage hasAudio, uts⟩,
          ⟨wid, .assistant, "(empty)", pts⟩]
    ∧ (∀ r, resolvedReply r ≠ "") := by
  constructor
  · rw [handleSend_unfold uid wid uts pts textArg inputBox hasImage hasAudio url
      (TransportResult.ok t ct) log hguard, if_neg hurl]
    show resolveMsg (handleSendPre uid wid uts pts (jsTrimS (textArg.getD inputBox))
      hasImage hasAudio log) wid (resolvedReply (parseWebhookText t ct)) = _
    rw [hempty]
    show resolveMsg (handleSendPre uid wid uts pts (jsTrimS (textArg.getD inputBox))
      hasImage hasAudio log) wid "(empty)" = _
    exact resolveMsg_pre uid wid uts pts _ hasImage hasAudio log "(empty)" hfresh huid
  · intro r
    rw [resolvedReply]
    by_cases h : r = ""
    · rw [if_pos h]
      decide
    · rw [if_neg h]
      exact h

/-- Witness for C10: the iframe branch's intentional empty decode resolves
the placeholder as "(empty)". -/
theorem resolved_reply_never_empty_witness :
    handleSend "u1" "w1" 10 11 (some "hi") "" false false "http://x"
        (TransportResult.ok "<div data-a=\"x srcdoc= y\"><iframe>no</iframe></div>" none) []
      = [⟨"u1", .user, "hi", 10⟩, ⟨"w1", .assistant, "(empty)", 11⟩]
    ∧ resolvedReply "" = "(empty)" := by
  have h := resolved_reply_never_empty "u1" "w1" 10 11 (some "hi") "" false false
    "http://x" "<div data-a=\"x srcdoc= y\"><iframe>no</iframe></div>" none []
    (by decide) (by decide) (by intro m hm; exact absurd hm (List.not_mem_nil m))
    (by decide) rfl
  refine ⟨?_, rfl⟩
  rw [h.1]
  rfl

/-- Claim C8: the composed multipart payload's `type` field follows the
audio-over-image precedence, the `text`, `source`, `chatId` and JSON
`metadata` fields are always present with their fixed contents, and the
binary `image` and `audio` parts are attached exactly when present. -/
theorem compose_payload_fields (body : String) (image audio : Option JsFile)
    (chatId : String) (now : Nat) :
    formGet (composeFormData body image audio chatId now) "type"
      = some (.str (if audio.isSome then "audio"
          else if image.isSome then "image" else "text"))
    ∧ formGet (composeFormData body image audio chatId now) "text" = some (.str body)
    ∧ formGet (composeFormData body image audio chatId now) "source"
        = some (.str "booking-bot")
    ∧ formGet (composeFormData body image audio chatId now) "chatId" = some (.str chatId)
    ∧ formGet (composeFormData body image audio chatId now) "metadata"
        = some (.str ⟨compactL (.obj
            [("ts", .num now), ("client", .str "web"), ("chatId", .str chatId)])⟩)
    ∧ (∀ f, image = some f →
        formGet (composeFormData body image audio chatId now) "image" = some (.file f))
    ∧ (∀ f, audio = some f →
        formGet (composeFormData body image audio chatId now) "audio" = some (.file f)) := by
  refine ⟨rfl, rfl, rfl, rfl, rfl, ?_, ?_⟩
  · intro f hf
    rw [hf]
    cases audio <;> rfl
  · intro f hf
    rw [hf]
    cases image <;> rfl

/-- Witness for C8 with both binary parts present: audio wins the `type`
precedence and both file parts are retrievable. -/
theorem compose_payload_fields_witness :
    formGet (composeFormData "hello" (some ⟨"img.png", 10, "image/png"⟩)
        (some ⟨"voice.webm", 5, "audio/webm"⟩) "c1" 42) "type" = some (.str "audio")
    ∧ formGet (composeFormData "hello" (some ⟨"img.png", 10, "image/png"⟩)
        (some ⟨"voice.webm", 5, "audio/webm"⟩) "c1" 42) "image"
        = some (.file ⟨"img.png", 10, "image/png"⟩)
    ∧ formGet (composeFormData "hello" (some ⟨"img.png", 10, "image/png"⟩)
        (some ⟨"voice.webm", 5, "audio/webm"⟩) "c1" 42) "audio"
        = some (.file ⟨"voice.webm", 5, "audio/webm"⟩) := by
  have h := compose_payload_fields "hello" (some ⟨"img.png", 10, "image/png"⟩)
    (some ⟨"voice.webm", 5, "audio/webm"⟩) "c1" 42
  exact ⟨h.1, h.2.2.2.2.2.1 _ rfl, h.2.2.2.2.2.2 _ rfl⟩

/-- Claim C9: stopping from the active state always leaves the recorder
idle, emits a stop effect for every acquired stream track (resource released
unconditionally), and finalizes the audio artifact and hands it to the send
path even when zero data was captured (a zero-length artifact); a failed
acquisition on start leaves the state unchanged at idle. -/
theorem recording_stop_releases (s : RecState) (acquired : Option (List Nat))
    (chunks : List Nat) (hrec : s.recording = true) :
    ((toggleRecording s acquired chunks).1.recording = false
      ∧ (∀ trackId ∈ s.tracks,
          RecEffect.trackStop trackId ∈ (toggleRecording s acquired chunks).2)
      ∧ RecEffect.sendVoice
            ⟨"voice-recording.webm", chunks.foldl (· + ·) 0, "audio/webm"⟩
          ∈ (toggleRecording s acquired chunks).2)
    ∧ (∀ s2 : RecState, s2.recording = false → (toggleRecording s2 none chunks).1 = s2) := by
  constructor
  · rw [toggleRecording.eq_def, if_pos hrec]
    refine ⟨rfl, ?_, ?_⟩
    · intro trackId htr
      rw [recorderOnStop]
      exact List.mem_cons_of_mem _ (List.mem_map_of_mem RecEffect.trackStop htr)
    · rw [recorderOnStop]
      exact List.mem_cons_self _ _
  · intro s2 h2
    rw [toggleRecording.eq_def, if_neg (by rw [h2]; exact Bool.false_ne_true)]

/-- Witness for C9: stopping an active two-track session with zero captured
chunks releases both tracks and finalizes a zero-length artifact; a denied
acquisition from idle stays idle. -/
theorem recording_stop_releases_witness :
    (toggleRecording ⟨true, [7, 8]⟩ none []).1.recording = false
    ∧ RecEffect.trackStop 7 ∈ (toggleRecording ⟨true, [7, 8]⟩ none []).2
    ∧ RecEffect.sendVoice ⟨"voice-recording.webm", 0, "audio/webm"⟩
        ∈ (toggleRecording ⟨true, [7, 8]⟩ none []).2
    ∧ (toggleRecording ⟨false, []⟩ none []).1 = ⟨false, []⟩ := by
  have h := recording_stop_releases ⟨true, [7, 8]⟩ none [] rfl
  exact ⟨h.1.1, h.1.2.1 7 (by decide), h.1.2.2, h.2 ⟨false, []⟩ rfl⟩
